import Mathlib

/-!
# Verification of the building-code viewer's tree / reference / search logic

Shallow embedding of the client-side logic of the building-code viewer
(`src/components/BuildingCodeViewer.tsx`, `src/services/buildingCodeService.ts`)
and proofs of the specified properties.

Modelling conventions:
* JS strings are modelled as `List Char`; `String.prototype.toLowerCase` is the
  character-wise `Char.toLower` (length preserving), `indexOf(needle, from)` is
  the least index `≥ from` at which `needle` is a prefix of the remaining text,
  and `substring(a, b)` is `(l.drop a).take (b - a)`.
* `Array.prototype.sort` (guaranteed stable in JS) is modelled by a stable
  insertion sort on the comparator's key.
* React state is a record (`ViewerState`); an async handler is modelled as a
  pure state transformer parameterised by the outcome of its awaited fetch
  (`Except Unit α`).
* `Set<number>` is modelled as a `List Nat` of the inserted elements; only
  membership is observed.
-/

namespace BCV

/-- A citation occurrence attached to a node's text
(interface `Reference` in `BuildingCodeViewer.tsx`; only the fields the
modelled functions read are kept). -/
structure Reference where
  id : Nat
  reference_text : List Char
  reference_position : Int
  target_content_id : Option Nat
  deriving Repr, DecidableEq

/-- One emitted run of `highlightReferences`: either a plain-text span or a
reference-link span wrapping the matched substring of the host text. -/
inductive Segment where
  | text (s : List Char)
  | ref (r : Reference) (s : List Char)
  deriving Repr, DecidableEq

/-- The characters of a segment, exactly as emitted. -/
def Segment.chars : Segment → List Char
  | .text s => s
  | .ref _ s => s

/-- Concatenation, in emission order, of all segment contents. -/
def concatSegments (segs : List Segment) : List Char :=
  segs.flatMap Segment.chars

/-- `String.prototype.toLowerCase`, character-wise. -/
def lowerChars (s : List Char) : List Char := s.map Char.toLower

/-- `hay.indexOf(needle, start)`: the least index `i ≥ start` at which `needle`
occurs in `hay`; `none` models JS's `-1`. -/
def indexOfFrom (hay needle : List Char) (start : Nat) : Option Nat :=
  (List.range (hay.length + 1)).find? (fun i => start ≤ i && needle.isPrefixOf (hay.drop i))

/-- Stable insertion of a reference into a list sorted by `reference_position`
ascending (a new element goes after existing elements with an equal key). -/
def insertByPos (r : Reference) : List Reference → List Reference
  | [] => [r]
  | x :: xs =>
      if r.reference_position ≤ x.reference_position then r :: x :: xs
      else x :: insertByPos r xs

/-- `[...references].sort((a, b) => a.reference_position - b.reference_position)`:
JS `Array.prototype.sort` is stable, modelled by stable insertion sort. -/
def sortByPos : List Reference → List Reference
  | [] => []
  | x :: xs => insertByPos x (sortByPos xs)

/-- One iteration of the `sortedReferences.forEach` body of
`highlightReferences`: case-insensitively search for the reference's text at or
after the cursor `lastIndex`; on a hit emit the gap (if non-empty) and the
matched span and advance the cursor, otherwise leave the state untouched. -/
def highlightStep (text textLower : List Char) (st : Nat × List Segment) (r : Reference) :
    Nat × List Segment :=
  let lastIndex := st.1
  let elements := st.2
  let refLower := lowerChars r.reference_text
  match indexOfFrom textLower refLower lastIndex with
  | none => (lastIndex, elements)
  | some refIndex =>
      let elements1 :=
        if lastIndex < refIndex then
          elements ++ [Segment.text ((text.drop lastIndex).take (refIndex - lastIndex))]
        else elements
      (refIndex + r.reference_text.length,
        elements1 ++ [Segment.ref r ((text.drop refIndex).take r.reference_text.length)])

/-- `highlightReferences(text, references)` from `BuildingCodeViewer.tsx`:
the ordered run-list of plain / reference segments produced for a node's text. -/
def highlightReferences (text : List Char) (references : List Reference) : List Segment :=
  if text.isEmpty ∨ references.isEmpty then [Segment.text text]
  else
    let sortedReferences := sortByPos references
    let textLower := lowerChars text
    let res := sortedReferences.foldl (highlightStep text textLower) (0, [])
    if res.1 < text.length then res.2 ++ [Segment.text (text.drop res.1)] else res.2

/-- The scan cursor (`lastIndex`) after processing a prefix of the sorted
reference list. -/
def cursorAfter (text : List Char) (refs : List Reference) : Nat :=
  (refs.foldl (highlightStep text (lowerChars text)) (0, [])).1

mutual

/-- A node of the document tree (`HierarchyNode` in the frontend's types):
an id, a nullable parent link, a content-type tag, optional display strings,
a sibling ordering key, attached references, and nested children. The
children array is represented by the mutually defined forest type `HForest`
so that every tree traversal is structurally recursive. -/
inductive HierarchyNode where
  | mk (id : Nat) (parent_id : Option Nat) (content_type : String)
      (title : Option (List Char)) (content_text : Option (List Char))
      (reference_code : Option (List Char)) (sequence_order : Int)
      (references : List Reference) (children : HForest)

/-- An array of `HierarchyNode` (children lists, the navigation forest, the
loaded content trees). -/
inductive HForest where
  | nil
  | cons (head : HierarchyNode) (tail : HForest)

end

def HierarchyNode.id : HierarchyNode → Nat
  | .mk i _ _ _ _ _ _ _ _ => i

def HierarchyNode.parent_id : HierarchyNode → Option Nat
  | .mk _ p _ _ _ _ _ _ _ => p

def HierarchyNode.content_type : HierarchyNode → String
  | .mk _ _ t _ _ _ _ _ _ => t

def HierarchyNode.title : HierarchyNode → Option (List Char)
  | .mk _ _ _ t _ _ _ _ _ => t

def HierarchyNode.content_text : HierarchyNode → Option (List Char)
  | .mk _ _ _ _ c _ _ _ _ => c

def HierarchyNode.reference_code : HierarchyNode → Option (List Char)
  | .mk _ _ _ _ _ rc _ _ _ => rc

def HierarchyNode.children : HierarchyNode → HForest
  | .mk _ _ _ _ _ _ _ _ cs => cs

/-- The nodes of a forest as a list, in array order. -/
def HForest.toList : HForest → List HierarchyNode
  | .nil => []
  | .cons n ns => n :: ns.toList

/-- The inner `checkInContent` of `isContentAlreadyLoaded`: a depth-first
boolean search for an id anywhere in a forest (the node itself first, then
its children, then its later siblings, with short-circuiting). -/
def checkInContent (contentId : Nat) : HForest → Bool
  | .nil => false
  | .cons (.mk i _ _ _ _ _ _ _ cs) ns =>
      i == contentId || checkInContent contentId cs || checkInContent contentId ns

/-- `findParentInNavigation(nodes, parentId)`: depth-first search for the node
whose id equals `parentId` (`null` matches nothing). -/
def findParentInNavigation : HForest → Option Nat → Option HierarchyNode
  | .nil, _ => none
  | .cons n ns, parentId =>
      match n with
      | .mk i _ _ _ _ _ _ _ cs =>
          if some i = parentId then some n
          else
            match findParentInNavigation cs parentId with
            | some found => some found
            | none => findParentInNavigation ns parentId

/-- The `while (current)` loop of `findParentContentId`: return the current
node's id as soon as its type is `part` or `section`, otherwise move to the
parent resolved through the navigation tree; when the parent resolves to
`null` fall back to the clicked item's id. The JS loop has no fuel; `none`
models non-termination on cyclic `parent_id` data. -/
def findParentContentIdLoop (nav : HForest) (itemId : Nat) :
    HierarchyNode → Nat → Option Nat
  | _, 0 => none
  | current, fuel + 1 =>
      if current.content_type = "part" ∨ current.content_type = "section" then
        some current.id
      else
        match findParentInNavigation nav current.parent_id with
        | some p => findParentContentIdLoop nav itemId p fuel
        | none => some itemId

/-- `findParentContentId(item)` from `BuildingCodeViewer.tsx`: the id of the
content unit to load for a clicked navigation item. -/
def findParentContentId (nav : HForest) (item : HierarchyNode) (fuel : Nat) :
    Option Nat :=
  if item.content_type ∈ (["division", "part", "section"] : List String) then some item.id
  else findParentContentIdLoop nav item.id item fuel

/-- Whether a node's `content_type` is `part` or `section`. -/
def isPartOrSection (n : HierarchyNode) : Bool :=
  n.content_type == "part" || n.content_type == "section"

/-- The chain of successive ancestors obtained by resolving `parent_id` links
through the navigation tree, starting from a given `parent_id` value
(bounded by fuel). -/
def ancestorList (nav : HForest) : Option Nat → Nat → List HierarchyNode
  | _, 0 => []
  | pid, fuel + 1 =>
      match findParentInNavigation nav pid with
      | none => []
      | some p => p :: ancestorList nav p.parent_id fuel

/-- The `collectAllIds` closure of `loadContentForItem`: walk the fetched
subtree adding every node's id (node first, then its children, then later
siblings), accumulating into the `Set`. -/
def collectAllIds : HForest → List Nat → List Nat
  | .nil, acc => acc
  | .cons (.mk i _ _ _ _ _ _ _ cs) ns, acc =>
      collectAllIds ns (collectAllIds cs (acc ++ [i]))

mutual

/-- All ids of a tree, root first (specification-side description of "every
node id occurring anywhere in the subtree"). -/
def nodeIds : HierarchyNode → List Nat
  | .mk i _ _ _ _ _ _ _ cs => i :: nodeIdsForest cs

/-- All ids of a forest, in depth-first order. -/
def nodeIdsForest : HForest → List Nat
  | .nil => []
  | .cons n ns => nodeIds n ++ nodeIdsForest ns

end

/-- The pre-order traversal of a forest: each parent before its children,
children before later siblings. -/
def preorderForest : HForest → List HierarchyNode
  | .nil => []
  | .cons n ns =>
      match n with
      | .mk _ _ _ _ _ _ _ _ cs => n :: (preorderForest cs ++ preorderForest ns)

/-- The React state of `BuildingCodeViewer` that the modelled handlers read
and write. -/
structure ViewerState where
  documentId : Option (List Char)
  navigationData : HForest
  currentContent : HForest
  searchTerm : List Char
  searchResults : List HierarchyNode
  selectedItem : Option Nat
  navigationExpandedItems : List Nat
  contentExpandedItems : List Nat
  contentLoading : Bool
  showMobileNav : Bool
  isMobile : Bool
  error : Option (List Char)

/-- `isContentAlreadyLoaded(contentId)`: whether the id occurs anywhere in the
currently loaded content trees. -/
def isContentAlreadyLoaded (st : ViewerState) (contentId : Nat) : Bool :=
  checkInContent contentId st.currentContent

/-- `loadContentForItem(contentId)` as a state transformer, parameterised by
the outcome of the awaited `getContentItem` fetch. On success the fetched
subtree replaces `currentContent` wholesale, the selection becomes
`contentId`, and the expand-set is rebuilt from all ids of the subtree; a
rejected fetch is caught (only logged) and, apart from clearing the loading
flag in `finally`, leaves the state untouched. With no `documentId` the
handler returns before doing anything. -/
def loadContentForItem (st : ViewerState) (contentId : Nat)
    (fetchResult : Except Unit HierarchyNode) : ViewerState :=
  match st.documentId with
  | none => st
  | some _ =>
      match fetchResult with
      | .ok contentItem =>
          { st with
            currentContent := .cons contentItem .nil
            selectedItem := some contentId
            contentExpandedItems := collectAllIds (.cons contentItem .nil) []
            showMobileNav := if st.isMobile then false else st.showMobileNav
            contentLoading := false }
      | .error _ => { st with contentLoading := false }

/-- `hay.includes(needle)`: the needle occurs as a contiguous substring. -/
def includesSub (needle hay : List Char) : Bool :=
  (List.range (hay.length + 1)).any (fun i => needle.isPrefixOf (hay.drop i))

/-- `term.toLowerCase()` containment test against an optional field, as in
`node.title?.toLowerCase().includes(term.toLowerCase())`: an absent field
matches nothing. -/
def optIncludesLower (term : List Char) : Option (List Char) → Bool
  | none => false
  | some s => includesSub (lowerChars term) (lowerChars s)

/-- The `matchesSearch` predicate of `handleSearch`'s client-side fallback:
the term occurs, case-insensitively, in the node's title, content text, or
reference code. -/
def searchMatchesNode (term : List Char) (n : HierarchyNode) : Bool :=
  optIncludesLower term n.title || optIncludesLower term n.content_text ||
    optIncludesLower term n.reference_code

/-- The `searchInNodes` closure of `handleSearch`'s fallback: walk the
navigation forest pushing every matching node (node first, then its children,
then later siblings) onto the results accumulator. -/
def searchInNodes (term : List Char) : HForest → List HierarchyNode →
    List HierarchyNode
  | .nil, results => results
  | .cons n ns, results =>
      match n with
      | .mk _ _ _ _ _ _ _ _ cs =>
          searchInNodes term ns
            (searchInNodes term cs
              (if searchMatchesNode term n then results ++ [n] else results))

/-- `String.prototype.trim`: strip whitespace from both ends. -/
def trimChars (s : List Char) : List Char :=
  ((s.dropWhile Char.isWhitespace).reverse.dropWhile Char.isWhitespace).reverse

/-- `searchContent(query, options?)` from `buildingCodeService.ts`: the query
parameters of the issued GET `/search` request — `q` is always the `query`
argument, and `documentId`, `page`, `limit` are appended only when present on
`options`. -/
def searchContentParams (query : List Char) (documentId : Option (List Char))
    (page limit : Option Nat) : List (List Char × List Char) :=
  [("q".toList, query)] ++
    (match documentId with
     | some d => [("documentId".toList, d)]
     | none => []) ++
    (match page with
     | some p => [("page".toList, (Nat.repr p).toList)]
     | none => []) ++
    (match limit with
     | some l => [("limit".toList, (Nat.repr l).toList)]
     | none => [])

/-- The backend call the debounce body of `handleSearch` issues:
`buildingCodeService.searchContent(documentId!, term)`. The service signature
is `searchContent(query, options?)`, so the `documentId` argument is bound to
`query` and the search `term` is bound to `options`; a string value has no
`documentId`, `page` or `limit` properties, so `options?.documentId` and the
other optional lookups are all `undefined` and only `q` is sent — carrying
the document id, not the term. -/
def handleSearchBackendCall (documentId _term : List Char) : List (List Char × List Char) :=
  searchContentParams documentId none none none

/-- The body of the debounce timer of `handleSearch`, as a state transformer
parameterised by the outcome of the awaited backend call: an empty (trimmed)
term clears the results; a successful call replaces the results wholesale; a
failed call is caught and the results are recomputed by the client-side
recursive scan of `navigationData`. -/
def handleSearchFire (st : ViewerState) (term : List Char)
    (backend : Except Unit (List HierarchyNode)) : ViewerState :=
  if (trimChars term).isEmpty then { st with searchResults := [] }
  else
    match backend with
    | .ok results => { st with searchResults := results }
    | .error _ => { st with searchResults := searchInNodes term st.navigationData [] }

/-- A keystroke in the search box: its time (ms) and the input's value. -/
structure KeyEvent where
  time : Nat
  term : List Char

/-- The single pending `setTimeout` handle plus the log of issued backend
search calls. -/
structure DebounceState where
  pending : Option (Nat × List Char)
  calls : List (List (List Char × List Char))

/-- Fire the pending debounce timer if its deadline has passed: an empty
(trimmed) captured term issues no call, otherwise the backend call of the
timer body is issued. -/
def fireIfDue (documentId : List Char) (st : DebounceState) (now : Nat) : DebounceState :=
  match st.pending with
  | none => st
  | some (fireTime, tm) =>
      if fireTime ≤ now then
        { pending := none
          calls := st.calls ++
            (if (trimChars tm).isEmpty then [] else [handleSearchBackendCall documentId tm]) }
      else st

/-- Run `handleSearch` over a keystroke trace: each keystroke first lets a
due timer fire, then clears any pending timer (`clearTimeout`) and schedules
a new 300 ms one capturing the keystroke's term; after the last keystroke the
surviving timer fires once its deadline is reached. -/
def runDebounce (documentId : List Char) (events : List KeyEvent) (endTime : Nat) :
    DebounceState :=
  let final := events.foldl
    (fun st e =>
      let st1 := fireIfDue documentId st e.time
      { st1 with pending := some (e.time + 300, e.term) })
    ⟨none, []⟩
  fireIfDue documentId final endTime

/-- Concrete navigation fixture: the ancestor chain
`division (10) → part (20) → section (30) → article (40) → sentence (50) →
clause (60)`, used to exercise `findParentContentId`. -/
def navChainFixture : HForest :=
  .cons (.mk 10 none "division" none none none 0 []
    (.cons (.mk 20 (some 10) "part" none none none 0 []
      (.cons (.mk 30 (some 20) "section" none none none 0 []
        (.cons (.mk 40 (some 30) "article" none none none 0 []
          (.cons (.mk 50 (some 40) "sentence" none none none 0 []
            (.cons (.mk 60 (some 50) "clause" none none none 0 [] .nil) .nil)) .nil)) .nil))
        .nil)) .nil)) .nil

/-- The clicked clause node of `navChainFixture`. -/
def clauseFixture : HierarchyNode := .mk 60 (some 50) "clause" none none none 0 [] .nil

/-- A minimal viewer state with a document id and nothing loaded. -/
def emptyViewerFixture : ViewerState :=
  ⟨some [Char.ofNat 100], .nil, .nil, [], [], none, [], [], false, false, false, none⟩

/-- A two-node content subtree: a `part` (id 1) with one `section` child (id 2). -/
def subtreeFixture : HierarchyNode :=
  .mk 1 none "part" none none none 0 []
    (.cons (.mk 2 (some 1) "section" none none none 0 [] .nil) .nil)

/-- A navigation fixture for the search fallback: a `part` titled `"P"` with a
`section` child titled `"Sec"`. -/
def navSearchFixture : HForest :=
  .cons (.mk 1 none "part" (some [Char.ofNat 80]) none none 0 []
    (.cons (.mk 2 (some 1) "section"
      (some [Char.ofNat 83, Char.ofNat 101, Char.ofNat 99]) none none 0 [] .nil) .nil)) .nil

/-- A viewer state whose navigation data is `navSearchFixture`. -/
def searchViewerFixture : ViewerState :=
  ⟨some [Char.ofNat 100], navSearchFixture, .nil, [], [], none, [], [], false, false, false, none⟩

/-- The module-level `requestCache` of `buildingCodeService.ts` plus the
bookkeeping needed to observe promise identity and issued fetches: the cache
maps keys to promise ids, `nextPromiseId` numbers freshly created promises,
and `fetchLog` records every network request actually started. -/
structure ServiceCacheState where
  cache : List (List Char × Nat)
  nextPromiseId : Nat
  fetchLog : List (List Char)

/-- `requestCache.get` / `requestCache.has` on the association list. -/
def cacheLookup (key : List Char) : List (List Char × Nat) → Option Nat
  | [] => none
  | (k, v) :: rest => if k = key then some v else cacheLookup key rest

/-- `requestCache.delete(key)`. -/
def cacheDelete (key : List Char) (c : List (List Char × Nat)) : List (List Char × Nat) :=
  c.filter (fun kv => kv.1 != key)

/-- The cache key built by `getContentItem`:
`content-item-${documentId}-${contentId}`. -/
def contentItemCacheKey (documentId : List Char) (contentId : Nat) : List Char :=
  "content-item-".toList ++ documentId ++ "-".toList ++ (Nat.repr contentId).toList

/-- `getContentItem(documentId, contentId)`: if the key is cached, return the
cached promise and change nothing; otherwise start a fetch, cache the new
promise under the key, and return it. The returned `Nat` is the promise the
caller receives. -/
def getContentItem (st : ServiceCacheState) (documentId : List Char) (contentId : Nat) :
    Nat × ServiceCacheState :=
  let key := contentItemCacheKey documentId contentId
  match cacheLookup key st.cache with
  | some pid => (pid, st)
  | none =>
      (st.nextPromiseId,
        { cache := st.cache ++ [(key, st.nextPromiseId)]
          nextPromiseId := st.nextPromiseId + 1
          fetchLog := st.fetchLog ++ [key] })

/-- The `.then` continuation of `getContentItem` runs exactly when an HTTP
response arrives, and its first action — before the `response.ok` check — is
`requestCache.delete(cacheKey)`; the `ok` flag is irrelevant to the cache. -/
def onHttpResponse (st : ServiceCacheState) (documentId : List Char) (contentId : Nat)
    (_ok : Bool) : ServiceCacheState :=
  { st with cache := cacheDelete (contentItemCacheKey documentId contentId) st.cache }

/-- When the underlying `fetch` rejects without a response (network error),
the `.then` callback never runs: the cache is left untouched and the rejected
promise stays in it. -/
def onNetworkError (st : ServiceCacheState) : ServiceCacheState := st

/-- A flat item of the `/building-code/hierarchy` style responses
(`BuildingCodeItem`): only the fields `buildHierarchy` reads. -/
structure FlatItem where
  id : Nat
  parent_id : Option Nat
  sequence_order : Int
  deriving Repr, DecidableEq

/-- JS truthiness of `item.parent_id` in `buildHierarchy`'s
`item.parent_id && map.has(item.parent_id)`: `null`/`undefined` and `0` are
falsy. -/
def truthyParentId (it : FlatItem) : Option Nat :=
  match it.parent_id with
  | some p => if p = 0 then none else some p
  | none => none

/-- `map.has(p)`: some input item carries id `p`. -/
def hasId (flat : List FlatItem) (p : Nat) : Bool :=
  flat.any (fun it => it.id == p)

/-- The parent under which `buildHierarchy`'s second loop files an item:
`some pid` exactly when `item.parent_id && map.has(item.parent_id)`; `none`
when the item is pushed onto `roots`. -/
def resolvedParent (flat : List FlatItem) (it : FlatItem) : Option Nat :=
  match truthyParentId it with
  | some p => if hasId flat p then some p else none
  | none => none

/-- The items pushed, in input order, into the children array of the map node
with id `pid` (the second loop appends in iteration order). -/
def childItems (flat : List FlatItem) (pid : Nat) : List FlatItem :=
  flat.filter (fun c => resolvedParent flat c == some pid)

/-- The items pushed, in input order, onto `roots`. -/
def rootItems (flat : List FlatItem) : List FlatItem :=
  flat.filter (fun c => resolvedParent flat c == none)

mutual

/-- A materialised node of `buildHierarchy`'s output: the item together with
its children array (`{ ...item, children }`). -/
inductive HTree where
  | node (item : FlatItem) (children : HTreeList)

/-- An array of output nodes. -/
inductive HTreeList where
  | nil
  | cons (head : HTree) (tail : HTreeList)

end

def HTree.item : HTree → FlatItem
  | .node it _ => it

def HTree.childrenL : HTree → HTreeList
  | .node _ cs => cs

def HTreeList.toList : HTreeList → List HTree
  | .nil => []
  | .cons t ts => t :: ts.toList

def ofTreeList : List HTree → HTreeList
  | [] => .nil
  | t :: ts => .cons t (ofTreeList ts)

/-- Reading the object graph `buildHierarchy`'s two loops leave in `map` from
a given item: the node's children are the child trees of the items filed
under its id. The JS graph is materialised with fuel; under the acyclicity
the claims assume, `flat.length + 1` fuel reaches every descendant. -/
def buildTreeFuel (flat : List FlatItem) : Nat → FlatItem → HTree
  | 0, it => .node it .nil
  | fuel + 1, it =>
      .node it (ofTreeList ((childItems flat it.id).map (buildTreeFuel flat fuel)))

/-- The forest of trees read from a list of items. -/
def buildForest (flat : List FlatItem) (fuel : Nat) (items : List FlatItem) : HTreeList :=
  ofTreeList (items.map (buildTreeFuel flat fuel))

/-- Stable insertion by `sequence_order` (a new element goes after existing
elements with an equal key). -/
def insertBySeq (t : HTree) : HTreeList → HTreeList
  | .nil => .cons t .nil
  | .cons u us =>
      if t.item.sequence_order ≤ u.item.sequence_order then .cons t (.cons u us)
      else .cons u (insertBySeq t us)

/-- `nodes.sort((a, b) => a.sequence_order - b.sequence_order)`: JS sort is
stable, modelled by stable insertion sort. -/
def sortBySeq : HTreeList → HTreeList
  | .nil => .nil
  | .cons t ts => insertBySeq t (sortBySeq ts)

mutual

/-- One node under `buildHierarchy`'s recursive `sortChildren`: its children
list sorted by `sequence_order` with every nested children list sorted too.
(The source sorts a list and then recurses into each node's children; since
the recursion never changes a node's `sequence_order`, recursing first and
sorting after yields the same forest.) -/
def sortTreeNode : HTree → HTree
  | .node it cs => .node it (sortBySeq (sortEach cs))

/-- `sortChildren` applied to every node of a list (before sorting the list
itself). -/
def sortEach : HTreeList → HTreeList
  | .nil => .nil
  | .cons t ts => .cons (sortTreeNode t) (sortEach ts)

end

/-- `sortChildren(nodes)` from `buildingCodeService.ts`. -/
def sortChildren (f : HTreeList) : HTreeList :=
  sortBySeq (sortEach f)

/-- `buildHierarchy(flatData)` from `buildingCodeService.ts`: file every item
under its truthy, resolvable parent (everything else becomes a root), then
recursively sort every children list (and the root list) by
`sequence_order`. -/
def buildHierarchy (flat : List FlatItem) : HTreeList :=
  sortChildren (buildForest flat (flat.length + 1) (rootItems flat))

mutual

/-- All ids of an output tree, root first. -/
def flattenIds : HTree → List Nat
  | .node it cs => it.id :: flattenIdsForest cs

/-- All ids of an output forest. -/
def flattenIdsForest : HTreeList → List Nat
  | .nil => []
  | .cons t ts => flattenIds t ++ flattenIdsForest ts

end

/-- The ids of the top-level nodes of a forest. -/
def forestRootIds : HTreeList → List Nat
  | .nil => []
  | .cons t ts => t.item.id :: forestRootIds ts

mutual

/-- The ids of the direct children of every node with id `pid` in a tree. -/
def directChildIdsT : HTree → Nat → List Nat
  | .node it cs, pid =>
      (if it.id = pid then forestRootIds cs else []) ++ directChildIdsF cs pid

/-- The ids of the direct children of every node with id `pid` in a forest. -/
def directChildIdsF : HTreeList → Nat → List Nat
  | .nil, _ => []
  | .cons t ts, pid => directChildIdsT t pid ++ directChildIdsF ts pid

end

/-- The forest's top level is weakly increasing in `sequence_order`. -/
def seqSortedF : HTreeList → Bool
  | .nil => true
  | .cons _ .nil => true
  | .cons t (.cons u us) =>
      decide (t.item.sequence_order ≤ u.item.sequence_order) && seqSortedF (.cons u us)

mutual

/-- Every children list at every depth of the tree is sorted ascending by
`sequence_order`. -/
def childrenSortedT : HTree → Bool
  | .node _ cs => seqSortedF cs && childrenSortedF cs

/-- Every children list at every depth of every tree of the forest is sorted
ascending by `sequence_order`. -/
def childrenSortedF : HTreeList → Bool
  | .nil => true
  | .cons t ts => childrenSortedT t && childrenSortedF ts

end

/-- `map.get(p)` after the first loop: the first input item with id `p`. -/
def resolveItem (flat : List FlatItem) (p : Nat) : Option FlatItem :=
  flat.find? (fun it => it.id == p)

/-- The input item an item is filed under, if any. -/
def parentItem (flat : List FlatItem) (it : FlatItem) : Option FlatItem :=
  match resolvedParent flat it with
  | some pid => resolveItem flat pid
  | none => none

/-- The chain `it, parent(it), parent(parent(it)), …` (bounded by fuel). -/
def chainList (flat : List FlatItem) : FlatItem → Nat → List FlatItem
  | _, 0 => []
  | it, f + 1 =>
      it :: (match parentItem flat it with
             | none => []
             | some p => chainList flat p f)

/-- The number of parent steps from an item to its root, when the parent
chain terminates within the fuel. -/
def chainLen (flat : List FlatItem) : FlatItem → Nat → Option Nat
  | _, 0 => none
  | it, f + 1 =>
      match parentItem flat it with
      | none => some 0
      | some p => (chainLen flat p f).map (· + 1)

/-- `target` lies on the parent chain of `j` (itself included). -/
def reaches (flat : List FlatItem) (j target : FlatItem) : Bool :=
  decide (target ∈ chainList flat j (flat.length + 1))

/-- The parent of an item in the sense of the claim: the item's `parent_id`
when it is non-null and occurs as the id of an input item. -/
def claimParent (flat : List FlatItem) (it : FlatItem) : Option Nat :=
  match it.parent_id with
  | some p => if p ∈ flat.map FlatItem.id then some p else none
  | none => none

/-- A concrete flat input for `buildHierarchy`: two roots (ids 1 and 4) and
two children of 1 (ids 2 and 3), with `sequence_order` chosen so that both
the root list and the children list need sorting. -/
def flatFixture : List FlatItem :=
  [⟨1, none, 5⟩, ⟨2, some 1, 2⟩, ⟨3, some 1, 1⟩, ⟨4, none, 0⟩]

/-! ## Lemmas and theorems -/

theorem lowerChars_length (s : List Char) : (lowerChars s).length = s.length :=
  List.length_map s Char.toLower

theorem concatSegments_append (a b : List Segment) :
    concatSegments (a ++ b) = concatSegments a ++ concatSegments b :=
  List.flatMap_append a b Segment.chars

theorem isPrefixOf_length_le :
    ∀ (a b : List Char), a.isPrefixOf b = true → a.length ≤ b.length
  | [], _, _ => Nat.zero_le _
  | a :: as, [], h => by simp [List.isPrefixOf] at h
  | a :: as, b :: bs, h => by
      simp only [List.isPrefixOf, Bool.and_eq_true] at h
      have := isPrefixOf_length_le as bs h.2
      simp only [List.length_cons]
      omega

theorem indexOfFrom_some {hay needle : List Char} {start j : Nat}
    (h : indexOfFrom hay needle start = some j) :
    start ≤ j ∧ j + needle.length ≤ hay.length ∧ needle.isPrefixOf (hay.drop j) = true := by
  unfold indexOfFrom at h
  have hp := List.find?_some h
  have hmem := List.mem_of_find?_eq_some h
  rw [List.mem_range] at hmem
  rw [Bool.and_eq_true, decide_eq_true_eq] at hp
  obtain ⟨h1, h2⟩ := hp
  refine ⟨h1, ?_, h2⟩
  have hlen := isPrefixOf_length_le needle (hay.drop j) h2
  rw [List.length_drop] at hlen
  omega

theorem highlight_fold_invariant (text : List Char) (refs : List Reference) :
    ∀ (i : Nat) (els : List Segment), i ≤ text.length → concatSegments els = text.take i →
      (refs.foldl (highlightStep text (lowerChars text)) (i, els)).1 ≤ text.length ∧
      concatSegments (refs.foldl (highlightStep text (lowerChars text)) (i, els)).2 =
        text.take (refs.foldl (highlightStep text (lowerChars text)) (i, els)).1 := by
  induction refs with
  | nil => intro i els hi hconc; exact ⟨hi, hconc⟩
  | cons r rs ih =>
      intro i els hi hconc
      rw [List.foldl_cons]
      rcases hidx : indexOfFrom (lowerChars text) (lowerChars r.reference_text) i with _ | j
      · have hstep : highlightStep text (lowerChars text) (i, els) r = (i, els) := by
          simp [highlightStep, hidx]
        rw [hstep]
        exact ih i els hi hconc
      · obtain ⟨hij, hjlen, hpre⟩ := indexOfFrom_some hidx
        rw [lowerChars_length, lowerChars_length] at hjlen
        have hstep : highlightStep text (lowerChars text) (i, els) r =
            (j + r.reference_text.length,
              (if i < j then
                els ++ [Segment.text ((text.drop i).take (j - i))]
               else els) ++ [Segment.ref r ((text.drop j).take r.reference_text.length)]) := by
          simp [highlightStep, hidx]
        rw [hstep]
        apply ih
        · exact hjlen
        · by_cases hlt : i < j
          · simp only [hlt, if_true]
            rw [concatSegments_append, concatSegments_append, hconc]
            have h1 : concatSegments [Segment.text ((text.drop i).take (j - i))] =
                (text.drop i).take (j - i) := by
              simp [concatSegments, Segment.chars]
            have h2 : concatSegments [Segment.ref r ((text.drop j).take r.reference_text.length)] =
                (text.drop j).take r.reference_text.length := by
              simp [concatSegments, Segment.chars]
            rw [h1, h2]
            have e1 : text.take j = text.take i ++ (text.drop i).take (j - i) := by
              have := List.take_add text i (j - i)
              rwa [Nat.add_sub_cancel' hij] at this
            have e2 : text.take (j + r.reference_text.length) =
                text.take j ++ (text.drop j).take r.reference_text.length :=
              List.take_add text j r.reference_text.length
            rw [e2, ← e1]
          · have hij' : i = j := by omega
            simp only [hlt, if_false]
            rw [concatSegments_append, hconc]
            have h2 : concatSegments [Segment.ref r ((text.drop j).take r.reference_text.length)] =
                (text.drop j).take r.reference_text.length := by
              simp [concatSegments, Segment.chars]
            rw [h2, hij']
            exact (List.take_add text j r.reference_text.length).symm

theorem highlightStep_none (text textLower : List Char) (st : Nat × List Segment) (r : Reference)
    (h : indexOfFrom textLower (lowerChars r.reference_text) st.1 = none) :
    highlightStep text textLower st r = st := by
  simp [highlightStep, h]

/-- C1: for every input text and every reference list, the concatenation, in
emission order, of all segments produced by `highlightReferences` — plain and
reference segments alike — equals the input text exactly: no characters are
added, dropped, or reordered. -/
theorem highlightReferences_concat (text : List Char) (refs : List Reference) :
    concatSegments (highlightReferences text refs) = text := by
  unfold highlightReferences
  by_cases hshort : text.isEmpty ∨ refs.isEmpty
  · simp only [hshort, if_true]
    simp [concatSegments, Segment.chars]
  · simp only [hshort, if_false]
    obtain ⟨hle, hconc⟩ :=
      highlight_fold_invariant text (sortByPos refs) 0 []
        (Nat.zero_le _) (by simp [concatSegments])
    set res := (sortByPos refs).foldl (highlightStep text (lowerChars text)) (0, []) with hres
    by_cases hlt : res.1 < text.length
    · simp only [hlt, if_true]
      rw [concatSegments_append, hconc]
      have h1 : concatSegments [Segment.text (text.drop res.1)] = text.drop res.1 := by
        simp [concatSegments, Segment.chars]
      rw [h1, List.take_append_drop]
    · simp only [hlt, if_false]
      have : res.1 = text.length := by omega
      rw [hconc, this, List.take_length]

end BCV

namespace BCV

/-- C5: a reference whose `reference_text` does not occur (case-insensitively)
in the text at or after the scan cursor reached at its place in the sorted
processing order (`A ++ r :: B` is the sorted view of the input, `A ++ B` the
sorted view of the input with `r` deleted) produces no segment, does not
advance the cursor, and leaves the output exactly as if `r` had been deleted
from the reference list. -/
theorem highlightReferences_skips_unmatched (text : List Char)
    (l1 l2 A B : List Reference) (r : Reference)
    (hsplit : sortByPos (l1 ++ r :: l2) = A ++ r :: B)
    (hdel : A ++ B = sortByPos (l1 ++ l2))
    (hnf : indexOfFrom (lowerChars text) (lowerChars r.reference_text)
      (cursorAfter text A) = none) :
    (A ++ [r]).foldl (highlightStep text (lowerChars text)) (0, []) =
      A.foldl (highlightStep text (lowerChars text)) (0, []) ∧
    highlightReferences text (l1 ++ r :: l2) = highlightReferences text (l1 ++ l2) := by
  have hstA : (A.foldl (highlightStep text (lowerChars text)) (0, [])).1 = cursorAfter text A := rfl
  have hskip : highlightStep text (lowerChars text)
      (A.foldl (highlightStep text (lowerChars text)) (0, [])) r =
      A.foldl (highlightStep text (lowerChars text)) (0, []) :=
    highlightStep_none _ _ _ _ (by rw [hstA]; exact hnf)
  have hfold1 : (A ++ [r]).foldl (highlightStep text (lowerChars text)) (0, []) =
      A.foldl (highlightStep text (lowerChars text)) (0, []) := by
    rw [List.foldl_append, List.foldl_cons, List.foldl_nil, hskip]
  refine ⟨hfold1, ?_⟩
  have hfolds : (sortByPos (l1 ++ r :: l2)).foldl (highlightStep text (lowerChars text)) (0, []) =
      (sortByPos (l1 ++ l2)).foldl (highlightStep text (lowerChars text)) (0, []) := by
    rw [hsplit, ← hdel, List.foldl_append, List.foldl_append, List.foldl_cons, hskip]
  unfold highlightReferences
  by_cases htext : text.isEmpty
  · simp [htext]
  · have htextf : text.isEmpty = false := by
      revert htext; cases text.isEmpty <;> simp
    by_cases hl12 : (l1 ++ l2).isEmpty
    · have hl1 : l1 = [] := by
        cases l1 with
        | nil => rfl
        | cons a as => simp at hl12
      have hl2 : l2 = [] := by
        cases l2 with
        | nil => rfl
        | cons a as => simp [hl1] at hl12
      subst hl1; subst hl2
      have hsort1 : sortByPos [r] = [r] := rfl
      have hA : A = [] := by
        rw [List.nil_append, hsort1] at hsplit
        cases A with
        | nil => rfl
        | cons a as =>
            rw [List.cons_append] at hsplit
            injection hsplit with e1 e2
            have : ([] : List Reference).length = (as ++ r :: B).length := by rw [e2]
            simp at this
            omega
      subst hA
      have hfr : ([r] : List Reference).foldl (highlightStep text (lowerChars text)) (0, []) =
          ((0 : Nat), ([] : List Segment)) := by
        rw [List.foldl_cons, List.foldl_nil]
        exact highlightStep_none _ _ _ _ (by simpa [cursorAfter] using hnf)
      have hlen : 0 < text.length := by
        cases text with
        | nil => simp at htext
        | cons c cs => simp
      simp only [List.nil_append, htextf, List.isEmpty_cons, List.isEmpty_nil,
        Bool.false_eq_true, or_false, or_true, if_false, if_true]
      rw [hsort1, hfr]
      simp [hlen]
    · have hne1 : (l1 ++ r :: l2).isEmpty = false := by
        cases l1 <;> simp
      have hne2 : (l1 ++ l2).isEmpty = false := by
        revert hl12; cases (l1 ++ l2).isEmpty <;> simp
      simp only [htextf, hne1, hne2, Bool.false_eq_true, or_self, if_false]
      simp only [hfolds]

end BCV

namespace BCV

/-- Witness for C5 at a concrete input: in the text `"abc"` with a matched
reference `"a"`, a stale reference `"zz"` and a matched reference `"c"`, the
stale reference changes nothing. -/
theorem highlightReferences_skips_unmatched_witness :
    highlightReferences [Char.ofNat 97, Char.ofNat 98, Char.ofNat 99]
        ([⟨1, [Char.ofNat 97], 0, none⟩] ++
          ⟨2, [Char.ofNat 122, Char.ofNat 122], 1, none⟩ :: [⟨3, [Char.ofNat 99], 2, none⟩]) =
      highlightReferences [Char.ofNat 97, Char.ofNat 98, Char.ofNat 99]
        ([⟨1, [Char.ofNat 97], 0, none⟩] ++ [⟨3, [Char.ofNat 99], 2, none⟩]) :=
  (highlightReferences_skips_unmatched
    [Char.ofNat 97, Char.ofNat 98, Char.ofNat 99]
    [⟨1, [Char.ofNat 97], 0, none⟩] [⟨3, [Char.ofNat 99], 2, none⟩]
    [⟨1, [Char.ofNat 97], 0, none⟩] [⟨3, [Char.ofNat 99], 2, none⟩]
    ⟨2, [Char.ofNat 122, Char.ofNat 122], 1, none⟩
    (by decide) (by decide) (by decide)).2

end BCV


namespace BCV

theorem isPartOrSection_true_iff (n : HierarchyNode) :
    isPartOrSection n = true ↔ (n.content_type = "part" ∨ n.content_type = "section") := by
  simp [isPartOrSection]

theorem findParentContentIdLoop_eq (nav : HForest) (itemId : Nat) :
    ∀ (fuel : Nat) (current : HierarchyNode) (r : Nat),
      findParentContentIdLoop nav itemId current fuel = some r →
      r = (if isPartOrSection current then current.id
           else
             match (ancestorList nav current.parent_id fuel).find? isPartOrSection with
             | some a => a.id
             | none => itemId) := by
  intro fuel
  induction fuel with
  | zero => intro current r h; simp [findParentContentIdLoop] at h
  | succ f ih =>
      intro current r h
      rw [findParentContentIdLoop] at h
      by_cases hps : current.content_type = "part" ∨ current.content_type = "section"
      · rw [if_pos hps] at h
        injection h with h
        rw [if_pos ((isPartOrSection_true_iff current).mpr hps)]
        exact h.symm
      · rw [if_neg hps] at h
        have hpsf : isPartOrSection current = false := by
          revert hps
          rw [← isPartOrSection_true_iff]
          cases isPartOrSection current <;> simp
        rw [hpsf, if_neg (by simp)]
        rw [ancestorList]
        cases hfp : findParentInNavigation nav current.parent_id with
        | none =>
            rw [hfp] at h
            injection h with h
            exact h.symm
        | some p =>
            rw [hfp] at h
            have hrec := ih p r h
            cases hp : isPartOrSection p with
            | true =>
                rw [if_pos hp] at hrec
                rw [List.find?_cons_of_pos _ hp]
                exact hrec
            | false =>
                rw [if_neg (by simp [hp])] at hrec
                rw [List.find?_cons_of_neg _ (by simp [hp])]
                exact hrec

/-- C3: `findParentContentId(item)` returns `item.id` when the item's
`content_type` is `division`, `part` or `section`; otherwise, whenever the
`while` walk terminates with a result, that result is the id of the nearest
ancestor (following `parent_id` links resolved through the navigation data)
whose `content_type` is `part` or `section`, falling back to `item.id` when
the chain ends without meeting one. -/
theorem findParentContentId_spec (nav : HForest) (item : HierarchyNode)
    (fuel : Nat) :
    (item.content_type ∈ (["division", "part", "section"] : List String) →
      findParentContentId nav item fuel = some item.id) ∧
    (item.content_type ∉ (["division", "part", "section"] : List String) →
      ∀ r, findParentContentId nav item fuel = some r →
        r = (match (ancestorList nav item.parent_id fuel).find? isPartOrSection with
             | some a => a.id
             | none => item.id)) := by
  constructor
  · intro hmem
    unfold findParentContentId
    rw [if_pos hmem]
  · intro hmem r h
    unfold findParentContentId at h
    rw [if_neg hmem] at h
    have hrec := findParentContentIdLoop_eq nav item.id fuel item r h
    have hpsf : isPartOrSection item = false := by
      cases hps : isPartOrSection item
      · rfl
      · exact absurd ((isPartOrSection_true_iff item).mp hps)
          (by simp only [List.mem_cons, List.mem_singleton] at hmem; tauto)
    rw [hpsf, if_neg (by simp)] at hrec
    exact hrec

/-- Witness for C3: on the ancestor chain
`clause → sentence → article → section → part → division` the clicked clause
(id 60) resolves to the nearest `section` ancestor (id 30), not the `part`
(id 20), and that id agrees with the nearest-ancestor description. -/
theorem findParentContentId_spec_witness :
    findParentContentId navChainFixture clauseFixture 10 = some 30 ∧
    (30 : Nat) =
      (match (ancestorList navChainFixture clauseFixture.parent_id 10).find? isPartOrSection with
       | some a => a.id
       | none => clauseFixture.id) :=
  ⟨by decide,
    (findParentContentId_spec navChainFixture clauseFixture 10).2 (by decide) 30 (by decide)⟩

theorem checkInContent_iff (x : Nat) :
    ∀ ns : HForest, (checkInContent x ns = true ↔ x ∈ nodeIdsForest ns)
  | .nil => by simp [checkInContent, nodeIdsForest]
  | .cons (.mk i p t ti ct rc so rs cs) ns => by
      have h1 := checkInContent_iff x cs
      have h2 := checkInContent_iff x ns
      simp only [checkInContent, nodeIdsForest, nodeIds, Bool.or_eq_true, beq_iff_eq,
        List.mem_cons, List.mem_append, h1, h2]
      constructor
      · rintro ((h | h) | h)
        · exact Or.inl (Or.inl h.symm)
        · exact Or.inl (Or.inr h)
        · exact Or.inr h
      · rintro ((h | h) | h)
        · exact Or.inl (Or.inl h.symm)
        · exact Or.inl (Or.inr h)
        · exact Or.inr h

theorem collectAllIds_eq :
    ∀ (ns : HForest) (acc : List Nat), collectAllIds ns acc = acc ++ nodeIdsForest ns
  | .nil, acc => by simp [collectAllIds, nodeIdsForest]
  | .cons (.mk i p t ti ct rc so rs cs) ns, acc => by
      simp only [collectAllIds, nodeIdsForest, nodeIds]
      rw [collectAllIds_eq cs, collectAllIds_eq ns]
      simp

/-- C4: immediately after a successful `loadContentForItem(n)` that fetched
the subtree `T`, `isContentAlreadyLoaded(x)` is true exactly for the ids `x`
occurring somewhere in `T` (root or any descendant). -/
theorem isContentAlreadyLoaded_after_load (st : ViewerState) (d : List Char)
    (hdoc : st.documentId = some d) (n : Nat) (T : HierarchyNode) (x : Nat) :
    (isContentAlreadyLoaded (loadContentForItem st n (.ok T)) x = true ↔ x ∈ nodeIds T) := by
  unfold loadContentForItem
  rw [hdoc]
  unfold isContentAlreadyLoaded
  simp only []
  rw [checkInContent_iff]
  simp [nodeIdsForest]

/-- Witness for C4: after loading a two-node subtree (ids 1, 2) into an empty
viewer, the nested id 2 is reported as loaded. -/
theorem isContentAlreadyLoaded_after_load_witness :
    isContentAlreadyLoaded
      (loadContentForItem emptyViewerFixture 1 (.ok subtreeFixture)) 2 = true :=
  (isContentAlreadyLoaded_after_load emptyViewerFixture [Char.ofNat 100] rfl 1
    subtreeFixture 2).mpr (by decide)

/-- C6: a successful `loadContentForItem(n)` replaces `currentContent`
wholesale with the one-element array holding the fetched subtree, selects `n`,
and rebuilds `contentExpandedItems` as exactly the set of all node ids of the
fetched subtree. -/
theorem loadContentForItem_success (st : ViewerState) (d : List Char)
    (hdoc : st.documentId = some d) (n : Nat) (T : HierarchyNode) :
    (loadContentForItem st n (.ok T)).currentContent = .cons T .nil ∧
    (loadContentForItem st n (.ok T)).selectedItem = some n ∧
    ∀ x, (x ∈ (loadContentForItem st n (.ok T)).contentExpandedItems ↔ x ∈ nodeIds T) := by
  unfold loadContentForItem
  rw [hdoc]
  refine ⟨rfl, rfl, ?_⟩
  intro x
  simp only [collectAllIds_eq]
  simp [nodeIdsForest]

/-- Witness for C6 at the concrete two-node subtree. -/
theorem loadContentForItem_success_witness :
    (loadContentForItem emptyViewerFixture 1 (.ok subtreeFixture)).currentContent =
      .cons subtreeFixture .nil ∧
    (loadContentForItem emptyViewerFixture 1 (.ok subtreeFixture)).selectedItem = some 1 ∧
    ((2 : Nat) ∈ (loadContentForItem emptyViewerFixture 1
        (.ok subtreeFixture)).contentExpandedItems ↔ (2 : Nat) ∈ nodeIds subtreeFixture) :=
  have h := loadContentForItem_success emptyViewerFixture [Char.ofNat 100] rfl 1 subtreeFixture
  ⟨h.1, h.2.1, h.2.2 2⟩

/-- C7: a failed content fetch inside `loadContentForItem` is caught; the
handler leaves `currentContent` and the selection exactly as they were (for
any state, whether or not a `documentId` is present). -/
theorem loadContentForItem_failure (st : ViewerState) (n : Nat) :
    (loadContentForItem st n (.error ())).currentContent = st.currentContent ∧
    (loadContentForItem st n (.error ())).selectedItem = st.selectedItem := by
  unfold loadContentForItem
  cases st.documentId <;> exact ⟨rfl, rfl⟩

theorem searchInNodes_eq (term : List Char) :
    ∀ (ns : HForest) (acc : List HierarchyNode),
      searchInNodes term ns acc = acc ++ (preorderForest ns).filter (searchMatchesNode term)
  | .nil, acc => by simp [searchInNodes, preorderForest]
  | .cons (.mk i p t ti ct rc so rs cs) ns, acc => by
      simp only [searchInNodes, preorderForest]
      rw [searchInNodes_eq term cs, searchInNodes_eq term ns,
        List.filter_cons, List.filter_append]
      cases hm : searchMatchesNode term (.mk i p t ti ct rc so rs cs) <;> simp

/-- C8: when the backend search call rejects, the error is swallowed (the
viewer's error state is untouched) and the results are recomputed
client-side as exactly the pre-order list of `navigationData` nodes whose
title, content text, or reference code contains the term case-insensitively. -/
theorem handleSearch_failure_fallback (st : ViewerState) (term : List Char)
    (hterm : (trimChars term).isEmpty = false) :
    (handleSearchFire st term (.error ())).searchResults =
      (preorderForest st.navigationData).filter (searchMatchesNode term) ∧
    (handleSearchFire st term (.error ())).error = st.error := by
  unfold handleSearchFire
  rw [hterm]
  simp [searchInNodes_eq]

/-- Witness for C8: searching `"se"` over a two-node navigation tree after a
backend failure returns exactly the matching `section` node, in pre-order. -/
theorem handleSearch_failure_fallback_witness :
    (handleSearchFire searchViewerFixture [Char.ofNat 115, Char.ofNat 101]
        (.error ())).searchResults =
      (preorderForest searchViewerFixture.navigationData).filter
        (searchMatchesNode [Char.ofNat 115, Char.ofNat 101]) :=
  (handleSearch_failure_fallback searchViewerFixture [Char.ofNat 115, Char.ofNat 101]
    (by decide)).1

/-- C2 (evidence of the defect): with keystrokes `"b"`, `"bu"`, `"bui"` at
0 ms, 100 ms and 200 ms — each within 300 ms of the previous one — exactly
one backend search call is issued (the debounce cancels the earlier timers),
but because `handleSearch` invokes `searchContent(documentId!, term)` against
the signature `searchContent(query, options?)`, that single call carries
`q = "doc-1"` (the document id) and the term `"bui"` appears in no query
parameter at all. -/
theorem handleSearch_debounce_single_call_wrong_query :
    (runDebounce ("doc-1".toList)
        [⟨0, "b".toList⟩, ⟨100, "bu".toList⟩, ⟨200, "bui".toList⟩] 1000).calls =
      [[("q".toList, "doc-1".toList)]] ∧
    ∀ ps ∈ (runDebounce ("doc-1".toList)
        [⟨0, "b".toList⟩, ⟨100, "bu".toList⟩, ⟨200, "bui".toList⟩] 1000).calls,
      ∀ pv ∈ ps, pv.2 ≠ "bui".toList := by
  constructor
  · rfl
  · decide

end BCV

namespace BCV

theorem cacheLookup_delete (key : List Char) :
    ∀ c : List (List Char × Nat), cacheLookup key (cacheDelete key c) = none := by
  intro c
  induction c with
  | nil => rfl
  | cons kv rest ih =>
      rcases kv with ⟨k, v⟩
      by_cases hk : k = key
      · simp [cacheDelete, hk] at ih ⊢
        exact ih
      · simp only [cacheDelete, List.filter_cons] at ih ⊢
        rw [if_pos (by simp [bne, hk])]
        rw [cacheLookup, if_neg hk]
        exact ih

/-- C10: while a `getContentItem(documentId, contentId)` request is in flight
(its key is in the cache with promise `pid`), every further call with the
same arguments returns that same promise and changes nothing — in particular
it issues no new network request; an arriving HTTP response (ok or not)
deletes the cache entry; a network rejection leaves the cache untouched, so a
call after it still returns the same (rejected) promise with no refetch. -/
theorem getContentItem_cache_spec (st : ServiceCacheState) (d : List Char) (c : Nat)
    (pid : Nat) (hin : cacheLookup (contentItemCacheKey d c) st.cache = some pid) :
    getContentItem st d c = (pid, st) ∧
    (∀ ok, cacheLookup (contentItemCacheKey d c) ((onHttpResponse st d c ok).cache) = none) ∧
    getContentItem (onNetworkError st) d c = (pid, st) ∧
    (getContentItem st d c).2.fetchLog = st.fetchLog := by
  have h1 : getContentItem st d c = (pid, st) := by
    unfold getContentItem
    simp only [hin]
  refine ⟨h1, ?_, h1, by rw [h1]⟩
  intro ok
  exact cacheLookup_delete (contentItemCacheKey d c) st.cache

/-- Witness for C10: after a first call on an empty cache creates promise 0
for document `"doc"`, content 5, a second call while it is in flight returns
promise 0 with the state (and fetch log) unchanged, also after a network
rejection; an HTTP response clears the entry. -/
theorem getContentItem_cache_spec_witness :
    getContentItem (getContentItem ⟨[], 0, []⟩ ("doc".toList) 5).2 ("doc".toList) 5 =
      (0, (getContentItem ⟨[], 0, []⟩ ("doc".toList) 5).2) ∧
    (∀ ok, cacheLookup (contentItemCacheKey ("doc".toList) 5)
      ((onHttpResponse (getContentItem ⟨[], 0, []⟩ ("doc".toList) 5).2 ("doc".toList) 5
        ok).cache) = none) ∧
    getContentItem (onNetworkError (getContentItem ⟨[], 0, []⟩ ("doc".toList) 5).2)
      ("doc".toList) 5 = (0, (getContentItem ⟨[], 0, []⟩ ("doc".toList) 5).2) ∧
    (getContentItem (getContentItem ⟨[], 0, []⟩ ("doc".toList) 5).2 ("doc".toList) 5).2.fetchLog =
      (getContentItem ⟨[], 0, []⟩ ("doc".toList) 5).2.fetchLog :=
  getContentItem_cache_spec (getContentItem ⟨[], 0, []⟩ ("doc".toList) 5).2
    ("doc".toList) 5 0 (by decide)

end BCV

namespace BCV

/-- C9 counterexample: the one-item input `[{id 1, parent_id 1}]` has
pairwise-distinct ids, yet `buildHierarchy` returns the empty forest — the
self-parented item is pushed into its own children array and never onto
`roots`, so the output does not contain each input item exactly once (nor is
the item a root, although its `parent_id` does not occur as the id of another
input item). -/
theorem buildHierarchy_selfparent_counterexample :
    (([⟨1, some 1, 0⟩] : List FlatItem).map FlatItem.id).Nodup ∧
    buildHierarchy [⟨1, some 1, 0⟩] = .nil ∧
    flattenIdsForest (buildHierarchy [⟨1, some 1, 0⟩]) = [] := by
  refine ⟨by decide, by rfl, by rfl⟩

theorem resolveItem_mem {flat : List FlatItem} {p : Nat} {q : FlatItem}
    (h : resolveItem flat p = some q) : q ∈ flat ∧ q.id = p :=
  ⟨List.mem_of_find?_eq_some h, by simpa using List.find?_some h⟩

theorem id_inj {flat : List FlatItem} (hnodup : (flat.map FlatItem.id).Nodup) :
    ∀ {a b : FlatItem}, a ∈ flat → b ∈ flat → a.id = b.id → a = b := by
  induction flat with
  | nil => intro a b h; simp at h
  | cons x xs ih =>
      intro a b ha hb hab
      simp only [List.map_cons, List.nodup_cons] at hnodup
      obtain ⟨hx, hxs⟩ := hnodup
      rcases List.mem_cons.mp ha with ha1 | ha1 <;> rcases List.mem_cons.mp hb with hb1 | hb1
      · rw [ha1, hb1]
      · subst ha1
        exact absurd (hab ▸ List.mem_map_of_mem FlatItem.id hb1) hx
      · subst hb1
        exact absurd (hab ▸ List.mem_map_of_mem FlatItem.id ha1) (by rw [← hab] at hx ⊢; exact hx)
      · exact ih hxs ha1 hb1 hab

theorem resolveItem_self {flat : List FlatItem} (hnodup : (flat.map FlatItem.id).Nodup)
    {it : FlatItem} (hit : it ∈ flat) : resolveItem flat it.id = some it := by
  cases h : resolveItem flat it.id with
  | none =>
      have := List.find?_eq_none.mp h it hit
      simp at this
  | some q =>
      obtain ⟨hq, hqid⟩ := resolveItem_mem h
      rw [id_inj hnodup hq hit hqid]

theorem resolvedParent_parentItem {flat : List FlatItem} {it : FlatItem} {pid : Nat}
    (h : resolvedParent flat it = some pid) :
    ∃ q, parentItem flat it = some q ∧ q.id = pid ∧ q ∈ flat := by
  have hhas : hasId flat pid = true := by
    unfold resolvedParent at h
    cases hp : truthyParentId it with
    | none => rw [hp] at h; simp at h
    | some p =>
        rw [hp] at h
        by_cases hh : hasId flat p = true
        · simp only [hh, if_true] at h
          injection h with h
          rwa [← h]
        · simp [hh] at h
  have hsome : (resolveItem flat pid).isSome = true := by
    unfold hasId at hhas
    rw [List.any_eq_true] at hhas
    exact List.find?_isSome.mpr hhas
  cases hq : resolveItem flat pid with
  | none => rw [hq] at hsome; simp at hsome
  | some q =>
      obtain ⟨hqmem, hqid⟩ := resolveItem_mem hq
      refine ⟨q, ?_, hqid, hqmem⟩
      unfold parentItem
      simp only [h, hq]

theorem parentItem_mem {flat : List FlatItem} {it q : FlatItem}
    (h : parentItem flat it = some q) : q ∈ flat := by
  unfold parentItem at h
  cases hr : resolvedParent flat it with
  | none => rw [hr] at h; exact absurd h (by simp)
  | some pid =>
      rw [hr] at h
      exact (resolveItem_mem h).1

theorem parentItem_none_iff {flat : List FlatItem} {it : FlatItem} :
    parentItem flat it = none ↔ resolvedParent flat it = none := by
  constructor
  · intro h
    cases hr : resolvedParent flat it with
    | none => rfl
    | some pid =>
        obtain ⟨q, hq, -, -⟩ := resolvedParent_parentItem hr
        rw [h] at hq
        exact absurd hq (by simp)
  · intro h
    unfold parentItem
    rw [h]

theorem mem_childItems {flat : List FlatItem} {pid : Nat} {c : FlatItem} :
    c ∈ childItems flat pid ↔ c ∈ flat ∧ resolvedParent flat c = some pid := by
  simp [childItems, List.mem_filter]

theorem mem_rootItems {flat : List FlatItem} {c : FlatItem} :
    c ∈ rootItems flat ↔ c ∈ flat ∧ resolvedParent flat c = none := by
  simp [rootItems, List.mem_filter]

theorem parentItem_eq_iff {flat : List FlatItem} (hnodup : (flat.map FlatItem.id).Nodup)
    {c q : FlatItem} (hq : q ∈ flat) :
    parentItem flat c = some q ↔ resolvedParent flat c = some q.id := by
  constructor
  · intro h
    unfold parentItem at h
    cases hr : resolvedParent flat c with
    | none => rw [hr] at h; exact absurd h (by simp)
    | some pid =>
        rw [hr] at h
        rw [(resolveItem_mem h).2]
  · intro h
    unfold parentItem
    simp only [h, resolveItem_self hnodup hq]

end BCV

namespace BCV

theorem chainLen_parent_none {flat : List FlatItem} {it : FlatItem} {f : Nat}
    (hp : parentItem flat it = none) : chainLen flat it (f + 1) = some 0 := by
  rw [chainLen, hp]

theorem chainLen_parent_some {flat : List FlatItem} {it p : FlatItem} {f : Nat}
    (hp : parentItem flat it = some p) :
    chainLen flat it (f + 1) = (chainLen flat p f).map (· + 1) := by
  rw [chainLen, hp]

theorem chainList_parent_none {flat : List FlatItem} {it : FlatItem} {f : Nat}
    (hp : parentItem flat it = none) : chainList flat it (f + 1) = [it] := by
  rw [chainList, hp]

theorem chainList_parent_some {flat : List FlatItem} {it p : FlatItem} {f : Nat}
    (hp : parentItem flat it = some p) :
    chainList flat it (f + 1) = it :: chainList flat p f := by
  rw [chainList, hp]

theorem chainLen_lt {flat : List FlatItem} :
    ∀ {f : Nat} {it : FlatItem} {d : Nat}, chainLen flat it f = some d → d < f := by
  intro f
  induction f with
  | zero => intro it d h; simp [chainLen] at h
  | succ g ih =>
      intro it d h
      cases hp : parentItem flat it with
      | none =>
          rw [chainLen_parent_none hp] at h
          injection h with h
          omega
      | some p =>
          rw [chainLen_parent_some hp] at h
          cases hc : chainLen flat p g with
          | none => rw [hc] at h; simp at h
          | some dp =>
              rw [hc] at h
              simp only [Option.map_some'] at h
              injection h with h
              have := ih hc
              omega

theorem chainLen_succ_fuel {flat : List FlatItem} :
    ∀ {f : Nat} {it : FlatItem} {d : Nat},
      chainLen flat it f = some d → chainLen flat it (f + 1) = some d := by
  intro f
  induction f with
  | zero => intro it d h; simp [chainLen] at h
  | succ g ih =>
      intro it d h
      cases hp : parentItem flat it with
      | none =>
          rw [chainLen_parent_none hp] at h
          rw [chainLen_parent_none hp]
          exact h
      | some p =>
          rw [chainLen_parent_some hp] at h
          rw [chainLen_parent_some hp]
          cases hc : chainLen flat p g with
          | none => rw [hc] at h; simp at h
          | some dp =>
              rw [hc] at h
              rw [ih hc]
              exact h

theorem chainList_stable {flat : List FlatItem} :
    ∀ {f : Nat} {it : FlatItem} {d : Nat},
      chainLen flat it f = some d → chainList flat it (f + 1) = chainList flat it f := by
  intro f
  induction f with
  | zero => intro it d h; simp [chainLen] at h
  | succ g ih =>
      intro it d h
      cases hp : parentItem flat it with
      | none => rw [chainList_parent_none hp, chainList_parent_none hp]
      | some p =>
          rw [chainLen_parent_some hp] at h
          cases hc : chainLen flat p g with
          | none => rw [hc] at h; simp at h
          | some dp =>
              rw [chainList_parent_some hp, chainList_parent_some hp, ih hc]

theorem chainLen_step {flat : List FlatItem} {f : Nat} {it p : FlatItem} {d : Nat}
    (h : chainLen flat it (f + 1) = some d) (hp : parentItem flat it = some p) :
    ∃ dp, chainLen flat p f = some dp ∧ d = dp + 1 := by
  rw [chainLen_parent_some hp] at h
  cases hc : chainLen flat p f with
  | none => rw [hc] at h; simp at h
  | some dp =>
      rw [hc] at h
      simp only [Option.map_some'] at h
      injection h with h
      exact ⟨dp, rfl, h.symm⟩

theorem mem_chainList_self {flat : List FlatItem} {it : FlatItem} {f : Nat} (hf : 0 < f) :
    it ∈ chainList flat it f := by
  cases f with
  | zero => omega
  | succ g =>
      cases hp : parentItem flat it with
      | none => rw [chainList_parent_none hp]; exact List.mem_singleton.mpr rfl
      | some p => rw [chainList_parent_some hp]; exact List.mem_cons_self it _

theorem chainList_sub_flat {flat : List FlatItem} :
    ∀ {f : Nat} {j x : FlatItem}, j ∈ flat → x ∈ chainList flat j f → x ∈ flat := by
  intro f
  induction f with
  | zero => intro j x hj hx; simp [chainList] at hx
  | succ g ih =>
      intro j x hj hx
      cases hp : parentItem flat j with
      | none =>
          rw [chainList_parent_none hp] at hx
          rw [List.mem_singleton.mp hx]
          exact hj
      | some p =>
          rw [chainList_parent_some hp] at hx
          rcases List.mem_cons.mp hx with h | h
          · rwa [h]
          · exact ih (parentItem_mem hp) h

theorem chain_elem_depth {flat : List FlatItem} :
    ∀ {f : Nat} {j : FlatItem} {d : Nat}, chainLen flat j f = some d →
      ∀ {x : FlatItem}, x ∈ chainList flat j f →
        ∃ dx, chainLen flat x f = some dx ∧ dx ≤ d ∧ (x ≠ j → dx < d) ∧
          (∀ y ∈ chainList flat x f, y ∈ chainList flat j f) := by
  intro f
  induction f with
  | zero => intro j d h; simp [chainLen] at h
  | succ g ih =>
      intro j d h x hx
      cases hp : parentItem flat j with
      | none =>
          rw [chainList_parent_none hp] at hx
          rw [List.mem_singleton.mp hx]
          exact ⟨d, h, Nat.le_refl d, fun hne => absurd rfl hne, fun y hy => hy⟩
      | some p =>
          rw [chainList_parent_some hp] at hx
          rcases List.mem_cons.mp hx with hxj | hxrest
          · subst hxj
            exact ⟨d, h, Nat.le_refl d, fun hne => absurd rfl hne, fun y hy => hy⟩
          · obtain ⟨dp, hdp, hd⟩ := chainLen_step h hp
            obtain ⟨dx, hdx, hdxle, _, hsub⟩ := ih hdp hxrest
            refine ⟨dx, chainLen_succ_fuel hdx, by omega, fun _ => by omega, ?_⟩
            intro y hy
            rw [chainList_stable hdx] at hy
            rw [chainList_parent_some hp]
            exact List.mem_cons.mpr (Or.inr (hsub y hy))

end BCV

namespace BCV

theorem chain_mem_total {flat : List FlatItem} :
    ∀ {f : Nat} {j : FlatItem} {d : Nat}, chainLen flat j f = some d →
      ∀ {x y : FlatItem}, x ∈ chainList flat j f → y ∈ chainList flat j f →
        x ∈ chainList flat y f ∨ y ∈ chainList flat x f := by
  intro f
  induction f with
  | zero => intro j d h; simp [chainLen] at h
  | succ g ih =>
      intro j d h x y hx hy
      cases hp : parentItem flat j with
      | none =>
          rw [chainList_parent_none hp] at hx hy
          rw [List.mem_singleton.mp hx, List.mem_singleton.mp hy]
          left
          exact mem_chainList_self (by omega)
      | some p =>
          rw [chainList_parent_some hp] at hx hy
          rcases List.mem_cons.mp hx with hxj | hxr
          · subst hxj
            right
            rw [chainList_parent_some hp]
            exact hy
          · rcases List.mem_cons.mp hy with hyj | hyr
            · subst hyj
              left
              rw [chainList_parent_some hp]
              exact hx
            · obtain ⟨dp, hdp, -⟩ := chainLen_step h hp
              obtain ⟨dx, hdx, -, -, -⟩ := chain_elem_depth hdp hxr
              obtain ⟨dy, hdy, -, -, -⟩ := chain_elem_depth hdp hyr
              rcases ih hdp hxr hyr with h1 | h1
              · left; rw [chainList_stable hdy]; exact h1
              · right; rw [chainList_stable hdx]; exact h1

theorem chain_elem_eq_of_depth {flat : List FlatItem} {f : Nat} {j : FlatItem} {d : Nat}
    (h : chainLen flat j f = some d) {x y : FlatItem}
    (hx : x ∈ chainList flat j f) (hy : y ∈ chainList flat j f)
    {dx dy : Nat} (hdx : chainLen flat x f = some dx) (hdy : chainLen flat y f = some dy)
    (hde : dx = dy) : x = y := by
  by_cases hxy : x = y
  · exact hxy
  · rcases chain_mem_total h hx hy with hm | hm
    · obtain ⟨dx2, hdx2, -, hlt, -⟩ := chain_elem_depth hdy hm
      rw [hdx] at hdx2
      injection hdx2 with hdx2
      have := hlt hxy
      omega
    · obtain ⟨dy2, hdy2, -, hlt, -⟩ := chain_elem_depth hdx hm
      rw [hdy] at hdy2
      injection hdy2 with hdy2
      have := hlt (fun he => hxy he.symm)
      omega

theorem chain_child_step {flat : List FlatItem} :
    ∀ {f : Nat} {j : FlatItem} {d : Nat} {it : FlatItem},
      chainLen flat j f = some d → it ∈ chainList flat j f → j ≠ it →
      ∃ c, c ∈ chainList flat j f ∧ parentItem flat c = some it := by
  intro f
  induction f with
  | zero => intro j d it h; simp [chainLen] at h
  | succ g ih =>
      intro j d it h hit hne
      cases hp : parentItem flat j with
      | none =>
          rw [chainList_parent_none hp] at hit
          exact absurd (List.mem_singleton.mp hit).symm hne
      | some p =>
          rw [chainList_parent_some hp] at hit
          rcases List.mem_cons.mp hit with h1 | h1
          · exact absurd h1.symm hne
          · by_cases hpit : p = it
            · refine ⟨j, mem_chainList_self (by omega), ?_⟩
              rw [hp, hpit]
            · obtain ⟨dp, hdp, -⟩ := chainLen_step h hp
              obtain ⟨c, hc, hcp⟩ := ih hdp h1 hpit
              refine ⟨c, ?_, hcp⟩
              rw [chainList_parent_some hp]
              exact List.mem_cons.mpr (Or.inr hc)

theorem mem_chainList_parent {flat : List FlatItem} {c it : FlatItem} {f : Nat}
    (hp : parentItem flat c = some it) (hf : 2 ≤ f) : it ∈ chainList flat c f := by
  cases f with
  | zero => omega
  | succ g =>
      rw [chainList_parent_some hp]
      exact List.mem_cons.mpr (Or.inr (mem_chainList_self (by omega)))

theorem chainLen_child {flat : List FlatItem} {c it : FlatItem} {f d : Nat}
    (hp : parentItem flat c = some it) (h : chainLen flat it f = some d) :
    chainLen flat c (f + 1) = some (d + 1) := by
  rw [chainLen_parent_some hp, h]
  rfl

theorem chain_last_root {flat : List FlatItem} :
    ∀ {f : Nat} {j : FlatItem} {d : Nat}, chainLen flat j f = some d →
      ∃ rt, rt ∈ chainList flat j f ∧ parentItem flat rt = none := by
  intro f
  induction f with
  | zero => intro j d h; simp [chainLen] at h
  | succ g ih =>
      intro j d h
      cases hp : parentItem flat j with
      | none =>
          exact ⟨j, mem_chainList_self (by omega), hp⟩
      | some p =>
          obtain ⟨dp, hdp, -⟩ := chainLen_step h hp
          obtain ⟨rt, hrt, hrtp⟩ := ih hdp
          refine ⟨rt, ?_, hrtp⟩
          rw [chainList_parent_some hp]
          exact List.mem_cons.mpr (Or.inr hrt)

end BCV

namespace BCV

theorem count_map_id_eq_countP (x : Nat) :
    ∀ l : List FlatItem, (l.map FlatItem.id).count x = l.countP (fun j => j.id == x) := by
  intro l
  induction l with
  | nil => rfl
  | cons a l ih =>
      rw [List.map_cons, List.count_cons, List.countP_cons, ih]

theorem countP_eq_one_of_unique {l : List FlatItem} (hnd : l.Nodup) {p : FlatItem → Bool}
    {c0 : FlatItem} (hc0 : c0 ∈ l) (hp0 : p c0 = true)
    (huniq : ∀ c ∈ l, p c = true → c = c0) : l.countP p = 1 := by
  induction l with
  | nil => simp at hc0
  | cons a l ih =>
      rw [List.countP_cons]
      rw [List.nodup_cons] at hnd
      rcases List.mem_cons.mp hc0 with h0 | h0
      · subst h0
        have hz : l.countP p = 0 := by
          rw [List.countP_eq_zero]
          intro c hc hpc
          exact absurd (huniq c (List.mem_cons.mpr (Or.inr hc)) hpc ▸ hc) hnd.1
        rw [hz, if_pos hp0]
      · have ha : p a = false := by
          cases hpa : p a with
          | false => rfl
          | true =>
              have := huniq a (List.mem_cons.mpr (Or.inl rfl)) hpa
              rw [this] at hnd
              exact absurd h0 hnd.1
        rw [ih hnd.2 h0 (fun c hc hpc => huniq c (List.mem_cons.mpr (Or.inr hc)) hpc)]
        simp [ha]

theorem sum_map_ite_eq_countP (p : FlatItem → Bool) :
    ∀ l : List FlatItem,
      (l.map (fun c => if p c = true then 1 else 0)).sum = l.countP p := by
  intro l
  induction l with
  | nil => rfl
  | cons a l ih =>
      rw [List.map_cons, List.sum_cons, List.countP_cons, ih]
      omega

theorem reaches_iff {flat : List FlatItem} {j t : FlatItem} :
    reaches flat j t = true ↔ t ∈ chainList flat j (flat.length + 1) := by
  simp [reaches]

theorem reaches_self {flat : List FlatItem} {j : FlatItem} : reaches flat j j = true :=
  reaches_iff.mpr (mem_chainList_self (by omega))

end BCV

namespace BCV

theorem countP_childItems_reaches {flat : List FlatItem}
    (hnodup : (flat.map FlatItem.id).Nodup)
    (hacyc : ∀ it ∈ flat, (chainLen flat it (flat.length + 1)).isSome = true)
    {it : FlatItem} (hit : it ∈ flat) {j : FlatItem} (hj : j ∈ flat) :
    (childItems flat it.id).countP (fun c => reaches flat j c) =
      if reaches flat j it = true ∧ j ≠ it then 1 else 0 := by
  have hlen1 : 1 ≤ flat.length := List.length_pos.mpr (List.ne_nil_of_mem hit)
  obtain ⟨dj, hdj⟩ := Option.isSome_iff_exists.mp (hacyc j hj)
  by_cases hcase : reaches flat j it = true ∧ j ≠ it
  · obtain ⟨hr, hne⟩ := hcase
    have hmem_it := reaches_iff.mp hr
    obtain ⟨c, hcmem, hcp⟩ := chain_child_step hdj hmem_it hne
    have hcflat : c ∈ flat := chainList_sub_flat hj hcmem
    have hcchild : c ∈ childItems flat it.id :=
      mem_childItems.mpr ⟨hcflat, (parentItem_eq_iff hnodup hit).mp hcp⟩
    obtain ⟨dit, hdit, -, -, -⟩ := chain_elem_depth hdj hmem_it
    have hdc1 : chainLen flat c (flat.length + 1 + 1) = some (dit + 1) :=
      chainLen_child hcp hdit
    rw [if_pos ⟨hr, hne⟩]
    apply countP_eq_one_of_unique
      ((List.Nodup.of_map FlatItem.id hnodup).filter _) hcchild (reaches_iff.mpr hcmem)
    intro c2 hc2 hr2
    have hcp2 : parentItem flat c2 = some it :=
      (parentItem_eq_iff hnodup hit).mpr (mem_childItems.mp hc2).2
    have hd21 : chainLen flat c2 (flat.length + 1 + 1) = some (dit + 1) :=
      chainLen_child hcp2 hdit
    have hmem_c2 := reaches_iff.mp hr2
    obtain ⟨dc2, hdc2, -, -, -⟩ := chain_elem_depth hdj hmem_c2
    obtain ⟨dc, hdc, -, -, -⟩ := chain_elem_depth hdj hcmem
    have e2 : dc2 = dit + 1 := by
      have := chainLen_succ_fuel hdc2
      rw [this] at hd21
      injection hd21
    have e1 : dc = dit + 1 := by
      have := chainLen_succ_fuel hdc
      rw [this] at hdc1
      injection hdc1
    exact chain_elem_eq_of_depth hdj hmem_c2 hcmem hdc2 hdc (by omega)
  · rw [if_neg hcase]
    rw [List.countP_eq_zero]
    intro c hc hr
    have hcp : parentItem flat c = some it :=
      (parentItem_eq_iff hnodup hit).mpr (mem_childItems.mp hc).2
    have hmem_c := reaches_iff.mp hr
    obtain ⟨-, -, -, -, hsub⟩ := chain_elem_depth hdj hmem_c
    have hit_in_c : it ∈ chainList flat c (flat.length + 1) :=
      mem_chainList_parent hcp (by omega)
    have hrit : reaches flat j it = true := reaches_iff.mpr (hsub it hit_in_c)
    have hji : j = it := by
      by_contra hne
      exact hcase ⟨hrit, hne⟩
    subst hji
    obtain ⟨dit, hdit⟩ := Option.isSome_iff_exists.mp (hacyc j hj)
    have hdc1 : chainLen flat c (flat.length + 1 + 1) = some (dit + 1) :=
      chainLen_child hcp hdit
    obtain ⟨dc, hdc, hdcle, -, -⟩ := chain_elem_depth hdit hmem_c
    have : dc = dit + 1 := by
      have := chainLen_succ_fuel hdc
      rw [this] at hdc1
      injection hdc1
    omega

theorem countP_rootItems_reaches {flat : List FlatItem}
    (hnodup : (flat.map FlatItem.id).Nodup)
    (hacyc : ∀ it ∈ flat, (chainLen flat it (flat.length + 1)).isSome = true)
    {j : FlatItem} (hj : j ∈ flat) :
    (rootItems flat).countP (fun r => reaches flat j r) = 1 := by
  obtain ⟨dj, hdj⟩ := Option.isSome_iff_exists.mp (hacyc j hj)
  obtain ⟨rt, hrt, hrtp⟩ := chain_last_root hdj
  have hrtflat : rt ∈ flat := chainList_sub_flat hj hrt
  have hrtroot : rt ∈ rootItems flat :=
    mem_rootItems.mpr ⟨hrtflat, parentItem_none_iff.mp hrtp⟩
  apply countP_eq_one_of_unique
    ((List.Nodup.of_map FlatItem.id hnodup).filter _) hrtroot (reaches_iff.mpr hrt)
  intro r hr hrr
  have hrp : parentItem flat r = none :=
    parentItem_none_iff.mpr (mem_rootItems.mp hr).2
  have hmem_r := reaches_iff.mp hrr
  obtain ⟨dr, hdr, -, -, -⟩ := chain_elem_depth hdj hmem_r
  obtain ⟨drt, hdrt, -, -, -⟩ := chain_elem_depth hdj hrt
  have e1 : dr = 0 := by
    have := @chainLen_parent_none flat r flat.length hrp
    rw [this] at hdr
    injection hdr with h
    exact h.symm
  have e2 : drt = 0 := by
    have := @chainLen_parent_none flat rt flat.length hrtp
    rw [this] at hdrt
    injection hdrt with h
    exact h.symm
  exact chain_elem_eq_of_depth hdj hmem_r hrt hdr hdrt (by omega)

end BCV

namespace BCV

theorem countP_id_unique {flat : List FlatItem} (hnodup : (flat.map FlatItem.id).Nodup)
    {x : Nat} {j0 : FlatItem} (hj0 : j0 ∈ flat) (hx : j0.id = x) (q : FlatItem → Bool) :
    flat.countP (fun j => q j && j.id == x) = if q j0 = true then 1 else 0 := by
  by_cases hq : q j0 = true
  · rw [if_pos hq]
    apply countP_eq_one_of_unique (List.Nodup.of_map FlatItem.id hnodup) hj0
      (by simp [hq, hx])
    intro c hc hpc
    simp only [Bool.and_eq_true, beq_iff_eq] at hpc
    exact id_inj hnodup hc hj0 (by rw [hpc.2, hx])
  · rw [if_neg hq]
    rw [List.countP_eq_zero]
    intro c hc hpc
    simp only [Bool.and_eq_true, beq_iff_eq] at hpc
    have : c = j0 := id_inj hnodup hc hj0 (by rw [hpc.2, hx])
    rw [this] at hpc
    exact hq hpc.1

theorem countP_id_none {flat : List FlatItem} {x : Nat}
    (hnone : ∀ j ∈ flat, j.id ≠ x) (q : FlatItem → Bool) :
    flat.countP (fun j => q j && j.id == x) = 0 := by
  rw [List.countP_eq_zero]
  intro c hc hpc
  simp only [Bool.and_eq_true, beq_iff_eq] at hpc
  exact hnone c hc hpc.2

theorem flattenIdsForest_ofTreeList :
    ∀ ts : List HTree, flattenIdsForest (ofTreeList ts) = ts.flatMap flattenIds := by
  intro ts
  induction ts with
  | nil => rfl
  | cons t ts ih => simp only [ofTreeList, flattenIdsForest, ih, List.flatMap_cons]

theorem count_flattenIdsForest_build (flat : List FlatItem) (fuel : Nat)
    (items : List FlatItem) (x : Nat) :
    (flattenIdsForest (buildForest flat fuel items)).count x =
      (items.map (fun r => (flattenIds (buildTreeFuel flat fuel r)).count x)).sum := by
  unfold buildForest
  rw [flattenIdsForest_ofTreeList, List.count_flatMap, List.map_map]
  rfl

/-- Counting form of the main correctness lemma for `buildTreeFuel`: with
enough fuel for every descendant, the multiset of ids in the materialised
tree of `it` is the multiset of ids of the input items whose parent chain
passes through `it`. -/
theorem count_flattenIds_buildTree {flat : List FlatItem}
    (hnodup : (flat.map FlatItem.id).Nodup)
    (hacyc : ∀ it ∈ flat, (chainLen flat it (flat.length + 1)).isSome = true) :
    ∀ (fuel : Nat) (it : FlatItem), it ∈ flat →
      ∀ dit, chainLen flat it (flat.length + 1) = some dit →
      (∀ j ∈ flat, reaches flat j it = true →
        ∀ dj, chainLen flat j (flat.length + 1) = some dj → dj < dit + fuel) →
      ∀ x : Nat, (flattenIds (buildTreeFuel flat fuel it)).count x =
        flat.countP (fun j => reaches flat j it && j.id == x) := by
  intro fuel
  induction fuel with
  | zero =>
      intro it hit dit hdit hbound x
      exact absurd (hbound it hit reaches_self dit hdit) (by omega)
  | succ fuel ih =>
      intro it hit dit hdit hbound x
      have hlen1 : 1 ≤ flat.length := List.length_pos.mpr (List.ne_nil_of_mem hit)
      rw [buildTreeFuel]
      rw [show flattenIds (.node it (ofTreeList ((childItems flat it.id).map
            (buildTreeFuel flat fuel)))) =
          it.id :: flattenIdsForest (ofTreeList ((childItems flat it.id).map
            (buildTreeFuel flat fuel))) from rfl]
      rw [List.count_cons, flattenIdsForest_ofTreeList, List.count_flatMap, List.map_map]
      have hchild : ∀ c ∈ childItems flat it.id,
          (flattenIds (buildTreeFuel flat fuel c)).count x =
            flat.countP (fun j => reaches flat j c && j.id == x) := by
        intro c hc
        obtain ⟨hcflat, hcres⟩ := mem_childItems.mp hc
        have hcp : parentItem flat c = some it := (parentItem_eq_iff hnodup hit).mpr hcres
        obtain ⟨dc, hdc⟩ := Option.isSome_iff_exists.mp (hacyc c hcflat)
        have hdc2 : chainLen flat c (flat.length + 1 + 1) = some (dit + 1) :=
          chainLen_child hcp hdit
        have hdceq : dc = dit + 1 := by
          have := chainLen_succ_fuel hdc
          rw [this] at hdc2
          injection hdc2
        apply ih c hcflat dc hdc
        intro j hjf hrjc dj hdj
        have hrit : reaches flat j it = true := by
          obtain ⟨-, -, -, -, hsub⟩ := chain_elem_depth
            (Option.isSome_iff_exists.mp (hacyc j hjf)).choose_spec (reaches_iff.mp hrjc)
          exact reaches_iff.mpr (hsub it (mem_chainList_parent hcp (by omega)))
        have := hbound j hjf hrit dj hdj
        omega
      have hstep1 : ((childItems flat it.id).map
            ((List.count x ∘ flattenIds) ∘ buildTreeFuel flat fuel)) =
          (childItems flat it.id).map
            (fun c => flat.countP (fun j => reaches flat j c && j.id == x)) :=
        List.map_congr_left (fun c hc => hchild c hc)
      rw [hstep1]
      by_cases hex : ∃ j0 ∈ flat, j0.id = x
      · obtain ⟨j0, hj0, hj0x⟩ := hex
        have hstep2 : (childItems flat it.id).map
              (fun c => flat.countP (fun j => reaches flat j c && j.id == x)) =
            (childItems flat it.id).map
              (fun c => if reaches flat j0 c = true then 1 else 0) :=
          List.map_congr_left (fun c _ => countP_id_unique hnodup hj0 hj0x _)
        rw [hstep2, sum_map_ite_eq_countP,
          countP_childItems_reaches hnodup hacyc hit hj0,
          countP_id_unique hnodup hj0 hj0x]
        by_cases hx0 : it.id = x
        · have hj0it : j0 = it := id_inj hnodup hj0 hit (by rw [hj0x, hx0])
          subst hj0it
          simp [reaches_self, hx0]
        · have hj0ne : j0 ≠ it := fun he => hx0 (by rw [← hj0x, he])
          by_cases hrj0 : reaches flat j0 it = true
          · simp [hrj0, hj0ne, hx0]
          · simp [hrj0, hx0]
      · push_neg at hex
        have hstep2 : (childItems flat it.id).map
              (fun c => flat.countP (fun j => reaches flat j c && j.id == x)) =
            (childItems flat it.id).map (fun _ => 0) :=
          List.map_congr_left (fun c _ => countP_id_none hex _)
        rw [hstep2]
        have hsum0 : ((childItems flat it.id).map (fun _ => (0 : Nat))).sum = 0 :=
          List.sum_eq_zero (by
            intro y hy
            obtain ⟨c, -, hc⟩ := List.mem_map.mp hy
            exact hc.symm)
        rw [hsum0, countP_id_none hex, if_neg (by simp [hex it hit])]

end BCV

namespace BCV

theorem buildForest_perm {flat : List FlatItem}
    (hnodup : (flat.map FlatItem.id).Nodup)
    (hacyc : ∀ it ∈ flat, (chainLen flat it (flat.length + 1)).isSome = true) :
    (flattenIdsForest (buildForest flat (flat.length + 1) (rootItems flat))).Perm
      (flat.map FlatItem.id) := by
  rw [List.perm_iff_count]
  intro x
  rw [count_flattenIdsForest_build]
  have hroot : ∀ r ∈ rootItems flat,
      (fun r => (flattenIds (buildTreeFuel flat (flat.length + 1) r)).count x) r =
        (fun r => flat.countP (fun j => reaches flat j r && j.id == x)) r := by
    intro r hr
    obtain ⟨hrflat, hrres⟩ := mem_rootItems.mp hr
    have hrp : parentItem flat r = none := parentItem_none_iff.mpr hrres
    have hd0 : chainLen flat r (flat.length + 1) = some 0 := chainLen_parent_none hrp
    apply count_flattenIds_buildTree hnodup hacyc _ r hrflat 0 hd0
    intro j hjf hrj dj hdj
    have := chainLen_lt hdj
    omega
  rw [List.map_congr_left hroot, count_map_id_eq_countP]
  by_cases hex : ∃ j0 ∈ flat, j0.id = x
  · obtain ⟨j0, hj0, hj0x⟩ := hex
    have hstep : (rootItems flat).map
          (fun r => flat.countP (fun j => reaches flat j r && j.id == x)) =
        (rootItems flat).map (fun r => if reaches flat j0 r = true then 1 else 0) :=
      List.map_congr_left (fun r _ => countP_id_unique hnodup hj0 hj0x _)
    rw [hstep, sum_map_ite_eq_countP, countP_rootItems_reaches hnodup hacyc hj0]
    have : flat.countP (fun j => j.id == x) =
        flat.countP (fun j => (fun _ => true) j && j.id == x) :=
      List.countP_congr (fun j _ => by simp)
    rw [this, countP_id_unique hnodup hj0 hj0x]
    simp
  · push_neg at hex
    have hstep : (rootItems flat).map
          (fun r => flat.countP (fun j => reaches flat j r && j.id == x)) =
        (rootItems flat).map (fun _ => 0) :=
      List.map_congr_left (fun r _ => countP_id_none hex _)
    rw [hstep]
    have hsum0 : ((rootItems flat).map (fun _ => (0 : Nat))).sum = 0 :=
      List.sum_eq_zero (by
        intro y hy
        obtain ⟨c, -, hc⟩ := List.mem_map.mp hy
        exact hc.symm)
    rw [hsum0]
    rw [Eq.comm, List.countP_eq_zero]
    intro j hj hjx
    exact hex j hj (by simpa using hjx)

end BCV

namespace BCV

theorem item_sortTreeNode (t : HTree) : (sortTreeNode t).item = t.item := by
  cases t with
  | node it cs => rfl

theorem item_buildTreeFuel (flat : List FlatItem) (fuel : Nat) (it : FlatItem) :
    (buildTreeFuel flat fuel it).item = it := by
  cases fuel with
  | zero => rfl
  | succ g => rfl

theorem toList_insertBySeq (t : HTree) :
    ∀ f : HTreeList, (insertBySeq t f).toList.Perm (t :: f.toList)
  | .nil => by simp [insertBySeq, HTreeList.toList]
  | .cons u us => by
      rw [insertBySeq]
      by_cases hle : t.item.sequence_order ≤ u.item.sequence_order
      · rw [if_pos hle]
        exact List.Perm.refl _
      · rw [if_neg hle]
        rw [show (HTreeList.cons u (insertBySeq t us)).toList =
          u :: (insertBySeq t us).toList from rfl]
        rw [show (HTreeList.cons u us).toList = u :: us.toList from rfl]
        exact ((toList_insertBySeq t us).cons u).trans (List.Perm.swap t u us.toList)

theorem toList_sortBySeq :
    ∀ f : HTreeList, (sortBySeq f).toList.Perm f.toList
  | .nil => by simp [sortBySeq]
  | .cons t ts => by
      rw [sortBySeq]
      exact (toList_insertBySeq t (sortBySeq ts)).trans ((toList_sortBySeq ts).cons t)

theorem toList_sortEach :
    ∀ f : HTreeList, (sortEach f).toList = f.toList.map sortTreeNode
  | .nil => rfl
  | .cons t ts => by
      rw [sortEach]
      rw [show (HTreeList.cons (sortTreeNode t) (sortEach ts)).toList =
        sortTreeNode t :: (sortEach ts).toList from rfl]
      rw [toList_sortEach ts]
      rfl

theorem flattenIdsForest_toList :
    ∀ f : HTreeList, flattenIdsForest f = f.toList.flatMap flattenIds
  | .nil => rfl
  | .cons t ts => by
      rw [show flattenIdsForest (.cons t ts) = flattenIds t ++ flattenIdsForest ts from rfl]
      rw [show (HTreeList.cons t ts).toList = t :: ts.toList from rfl]
      rw [List.flatMap_cons, flattenIdsForest_toList ts]

theorem forestRootIds_toList :
    ∀ f : HTreeList, forestRootIds f = f.toList.map (fun t => t.item.id)
  | .nil => rfl
  | .cons t ts => by
      rw [show forestRootIds (.cons t ts) = t.item.id :: forestRootIds ts from rfl]
      rw [show (HTreeList.cons t ts).toList = t :: ts.toList from rfl]
      rw [List.map_cons, forestRootIds_toList ts]

theorem directChildIdsF_toList (pid : Nat) :
    ∀ f : HTreeList, directChildIdsF f pid = f.toList.flatMap (directChildIdsT · pid)
  | .nil => rfl
  | .cons t ts => by
      rw [show directChildIdsF (.cons t ts) pid =
        directChildIdsT t pid ++ directChildIdsF ts pid from rfl]
      rw [show (HTreeList.cons t ts).toList = t :: ts.toList from rfl]
      rw [List.flatMap_cons, directChildIdsF_toList pid ts]

theorem flattenIdsForest_sortBySeq (f : HTreeList) :
    (flattenIdsForest (sortBySeq f)).Perm (flattenIdsForest f) := by
  rw [flattenIdsForest_toList, flattenIdsForest_toList]
  exact List.Perm.flatMap_right flattenIds (toList_sortBySeq f)

mutual

theorem flattenIds_sortTreeNode :
    ∀ t : HTree, (flattenIds (sortTreeNode t)).Perm (flattenIds t)
  | .node it cs => by
      rw [sortTreeNode]
      rw [show flattenIds (.node it (sortBySeq (sortEach cs))) =
        it.id :: flattenIdsForest (sortBySeq (sortEach cs)) from rfl]
      rw [show flattenIds (.node it cs) = it.id :: flattenIdsForest cs from rfl]
      exact ((flattenIdsForest_sortBySeq (sortEach cs)).trans
        (flattenIdsForest_sortEach cs)).cons it.id

theorem flattenIdsForest_sortEach :
    ∀ f : HTreeList, (flattenIdsForest (sortEach f)).Perm (flattenIdsForest f)
  | .nil => List.Perm.refl _
  | .cons t ts => by
      rw [sortEach]
      rw [show flattenIdsForest (.cons (sortTreeNode t) (sortEach ts)) =
        flattenIds (sortTreeNode t) ++ flattenIdsForest (sortEach ts) from rfl]
      rw [show flattenIdsForest (.cons t ts) = flattenIds t ++ flattenIdsForest ts from rfl]
      exact (flattenIds_sortTreeNode t).append (flattenIdsForest_sortEach ts)

end

theorem flattenIdsForest_sortChildren (f : HTreeList) :
    (flattenIdsForest (sortChildren f)).Perm (flattenIdsForest f) := by
  unfold sortChildren
  exact (flattenIdsForest_sortBySeq (sortEach f)).trans (flattenIdsForest_sortEach f)

end BCV

namespace BCV

theorem forestRootIds_sortEach : ∀ f : HTreeList, forestRootIds (sortEach f) = forestRootIds f
  | .nil => rfl
  | .cons t ts => by
      rw [sortEach]
      rw [show forestRootIds (.cons (sortTreeNode t) (sortEach ts)) =
        (sortTreeNode t).item.id :: forestRootIds (sortEach ts) from rfl]
      rw [show forestRootIds (.cons t ts) = t.item.id :: forestRootIds ts from rfl]
      rw [item_sortTreeNode, forestRootIds_sortEach ts]

theorem forestRootIds_sortBySeq (f : HTreeList) :
    (forestRootIds (sortBySeq f)).Perm (forestRootIds f) := by
  rw [forestRootIds_toList, forestRootIds_toList]
  exact List.Perm.map _ (toList_sortBySeq f)

theorem forestRootIds_sortChildren (f : HTreeList) :
    (forestRootIds (sortChildren f)).Perm (forestRootIds f) := by
  unfold sortChildren
  exact (forestRootIds_sortBySeq (sortEach f)).trans
    (by rw [forestRootIds_sortEach f])

theorem directChildIdsF_sortBySeq (pid : Nat) (f : HTreeList) :
    (directChildIdsF (sortBySeq f) pid).Perm (directChildIdsF f pid) := by
  rw [directChildIdsF_toList, directChildIdsF_toList]
  exact List.Perm.flatMap_right (directChildIdsT · pid) (toList_sortBySeq f)

mutual

theorem directChildIdsT_sortTreeNode :
    ∀ (t : HTree) (pid : Nat),
      (directChildIdsT (sortTreeNode t) pid).Perm (directChildIdsT t pid)
  | .node it cs, pid => by
      rw [sortTreeNode]
      rw [show directChildIdsT (.node it (sortBySeq (sortEach cs))) pid =
        (if it.id = pid then forestRootIds (sortBySeq (sortEach cs)) else []) ++
          directChildIdsF (sortBySeq (sortEach cs)) pid from rfl]
      rw [show directChildIdsT (.node it cs) pid =
        (if it.id = pid then forestRootIds cs else []) ++ directChildIdsF cs pid from rfl]
      apply List.Perm.append
      · by_cases hid : it.id = pid
        · rw [if_pos hid, if_pos hid]
          exact (forestRootIds_sortBySeq (sortEach cs)).trans
            (by rw [forestRootIds_sortEach cs])
        · rw [if_neg hid, if_neg hid]
      · exact (directChildIdsF_sortBySeq pid (sortEach cs)).trans
          (directChildIdsF_sortEach cs pid)

theorem directChildIdsF_sortEach :
    ∀ (f : HTreeList) (pid : Nat),
      (directChildIdsF (sortEach f) pid).Perm (directChildIdsF f pid)
  | .nil, pid => List.Perm.refl _
  | .cons t ts, pid => by
      rw [sortEach]
      rw [show directChildIdsF (.cons (sortTreeNode t) (sortEach ts)) pid =
        directChildIdsT (sortTreeNode t) pid ++ directChildIdsF (sortEach ts) pid from rfl]
      rw [show directChildIdsF (.cons t ts) pid =
        directChildIdsT t pid ++ directChildIdsF ts pid from rfl]
      exact (directChildIdsT_sortTreeNode t pid).append (directChildIdsF_sortEach ts pid)

end

theorem directChildIdsF_sortChildren (f : HTreeList) (pid : Nat) :
    (directChildIdsF (sortChildren f) pid).Perm (directChildIdsF f pid) := by
  unfold sortChildren
  exact (directChildIdsF_sortBySeq pid (sortEach f)).trans (directChildIdsF_sortEach f pid)

theorem seqSortedF_insertBySeq (t : HTree) :
    ∀ f : HTreeList, seqSortedF f = true → seqSortedF (insertBySeq t f) = true
  | .nil, _ => rfl
  | .cons u us, h => by
      rw [insertBySeq]
      by_cases hle : t.item.sequence_order ≤ u.item.sequence_order
      · rw [if_pos hle]
        rw [show seqSortedF (.cons t (.cons u us)) =
          (decide (t.item.sequence_order ≤ u.item.sequence_order) &&
            seqSortedF (.cons u us)) from rfl]
        simp [hle, h]
      · rw [if_neg hle]
        have hut : u.item.sequence_order ≤ t.item.sequence_order := le_of_not_le hle
        cases us with
        | nil =>
            rw [show insertBySeq t .nil = .cons t .nil from rfl]
            rw [show seqSortedF (.cons u (.cons t .nil)) =
              (decide (u.item.sequence_order ≤ t.item.sequence_order) &&
                seqSortedF (.cons t .nil)) from rfl]
            simp [hut]
            rfl
        | cons v vs =>
            rw [show seqSortedF (.cons u (.cons v vs)) =
              (decide (u.item.sequence_order ≤ v.item.sequence_order) &&
                seqSortedF (.cons v vs)) from rfl] at h
            rw [Bool.and_eq_true] at h
            obtain ⟨huv, hsvs⟩ := h
            have hrec := seqSortedF_insertBySeq t (.cons v vs) hsvs
            rw [insertBySeq] at hrec ⊢
            by_cases hv : t.item.sequence_order ≤ v.item.sequence_order
            · rw [if_pos hv] at hrec ⊢
              rw [show seqSortedF (.cons u (.cons t (.cons v vs))) =
                (decide (u.item.sequence_order ≤ t.item.sequence_order) &&
                  seqSortedF (.cons t (.cons v vs))) from rfl]
              simp [hut, hrec]
            · rw [if_neg hv] at hrec ⊢
              rw [show seqSortedF (.cons u (.cons v (insertBySeq t vs))) =
                (decide (u.item.sequence_order ≤ v.item.sequence_order) &&
                  seqSortedF (.cons v (insertBySeq t vs))) from rfl]
              rw [huv, hrec]
              rfl

theorem seqSortedF_sortBySeq : ∀ f : HTreeList, seqSortedF (sortBySeq f) = true
  | .nil => rfl
  | .cons t ts => seqSortedF_insertBySeq t _ (seqSortedF_sortBySeq ts)

theorem childrenSortedF_iff_toList :
    ∀ f : HTreeList, (childrenSortedF f = true ↔ ∀ t ∈ f.toList, childrenSortedT t = true)
  | .nil => by
      rw [show childrenSortedF .nil = true from rfl]
      rw [show HTreeList.toList .nil = [] from rfl]
      simp
  | .cons t ts => by
      rw [show childrenSortedF (.cons t ts) =
        (childrenSortedT t && childrenSortedF ts) from rfl]
      rw [show (HTreeList.cons t ts).toList = t :: ts.toList from rfl]
      rw [Bool.and_eq_true, childrenSortedF_iff_toList ts]
      simp [List.forall_mem_cons]

mutual

theorem childrenSortedT_sortTreeNode : ∀ t : HTree, childrenSortedT (sortTreeNode t) = true
  | .node it cs => by
      rw [sortTreeNode]
      rw [show childrenSortedT (.node it (sortBySeq (sortEach cs))) =
        (seqSortedF (sortBySeq (sortEach cs)) &&
          childrenSortedF (sortBySeq (sortEach cs))) from rfl]
      rw [seqSortedF_sortBySeq, Bool.true_and]
      apply (childrenSortedF_iff_toList _).mpr
      intro u hu
      have hu2 : u ∈ (sortEach cs).toList := (toList_sortBySeq (sortEach cs)).mem_iff.mp hu
      exact (childrenSortedF_iff_toList _).mp (childrenSortedF_sortEach cs) u hu2

theorem childrenSortedF_sortEach : ∀ f : HTreeList, childrenSortedF (sortEach f) = true
  | .nil => rfl
  | .cons t ts => by
      rw [sortEach]
      rw [show childrenSortedF (.cons (sortTreeNode t) (sortEach ts)) =
        (childrenSortedT (sortTreeNode t) && childrenSortedF (sortEach ts)) from rfl]
      rw [childrenSortedT_sortTreeNode t, childrenSortedF_sortEach ts]
      rfl

end

theorem childrenSortedF_sortChildren (f : HTreeList) :
    childrenSortedF (sortChildren f) = true := by
  unfold sortChildren
  apply (childrenSortedF_iff_toList _).mpr
  intro u hu
  have hu2 : u ∈ (sortEach f).toList := (toList_sortBySeq (sortEach f)).mem_iff.mp hu
  exact (childrenSortedF_iff_toList _).mp (childrenSortedF_sortEach f) u hu2

end BCV

namespace BCV

theorem toList_ofTreeList : ∀ ts : List HTree, (ofTreeList ts).toList = ts
  | [] => rfl
  | t :: ts => by
      rw [ofTreeList]
      rw [show (HTreeList.cons t (ofTreeList ts)).toList = t :: (ofTreeList ts).toList from rfl]
      rw [toList_ofTreeList ts]

theorem forestRootIds_buildForest (flat : List FlatItem) (fuel : Nat)
    (items : List FlatItem) :
    forestRootIds (buildForest flat fuel items) = items.map FlatItem.id := by
  unfold buildForest
  rw [forestRootIds_toList, toList_ofTreeList, List.map_map]
  exact List.map_congr_left (fun r _ => by
    show (buildTreeFuel flat fuel r).item.id = r.id
    rw [item_buildTreeFuel])

theorem directChildIdsF_buildForest (flat : List FlatItem) (fuel : Nat)
    (items : List FlatItem) (pid : Nat) :
    directChildIdsF (buildForest flat fuel items) pid =
      (items.map (buildTreeFuel flat fuel)).flatMap (directChildIdsT · pid) := by
  unfold buildForest
  rw [directChildIdsF_toList, toList_ofTreeList]

theorem mem_directChildIds_buildTree {flat : List FlatItem}
    (hnodup : (flat.map FlatItem.id).Nodup)
    (hacyc : ∀ it ∈ flat, (chainLen flat it (flat.length + 1)).isSome = true) :
    ∀ (fuel : Nat) (r : FlatItem), r ∈ flat →
      ∀ dr, chainLen flat r (flat.length + 1) = some dr →
      ∀ q, q ∈ flat → reaches flat q r = true →
      ∀ dq, chainLen flat q (flat.length + 1) = some dq → dq < dr + fuel →
      ∀ x, x ∈ (childItems flat q.id).map FlatItem.id →
        x ∈ directChildIdsT (buildTreeFuel flat fuel r) q.id := by
  intro fuel
  induction fuel with
  | zero =>
      intro r hr dr hdr q hq hqr dq hdq hlt x hx
      obtain ⟨dr2, hdr2, hle, -, -⟩ := chain_elem_depth hdq (reaches_iff.mp hqr)
      rw [hdr] at hdr2
      injection hdr2 with he
      omega
  | succ fuel ih =>
      intro r hr dr hdr q hq hqr dq hdq hlt x hx
      rw [buildTreeFuel]
      rw [show directChildIdsT (.node r (ofTreeList ((childItems flat r.id).map
            (buildTreeFuel flat fuel)))) q.id =
          (if r.id = q.id then
            forestRootIds (ofTreeList ((childItems flat r.id).map (buildTreeFuel flat fuel)))
           else []) ++
            directChildIdsF (ofTreeList ((childItems flat r.id).map
              (buildTreeFuel flat fuel))) q.id from rfl]
      by_cases hqreq : q = r
      · subst hqreq
        rw [if_pos rfl]
        apply List.mem_append_left
        rw [forestRootIds_toList, toList_ofTreeList, List.map_map]
        have : ((childItems flat q.id).map ((fun t => t.item.id) ∘ buildTreeFuel flat fuel)) =
            (childItems flat q.id).map FlatItem.id :=
          List.map_congr_left (fun c _ => by
            show (buildTreeFuel flat fuel c).item.id = c.id
            rw [item_buildTreeFuel])
        rw [this]
        exact hx
      · have hne : ¬ r.id = q.id := fun he => hqreq (id_inj hnodup hq hr he.symm)
        rw [if_neg hne]
        apply List.mem_append_right
        obtain ⟨c, hcmem, hcp⟩ := chain_child_step hdq (reaches_iff.mp hqr) hqreq
        have hcflat : c ∈ flat := chainList_sub_flat hq hcmem
        have hcchild : c ∈ childItems flat r.id :=
          mem_childItems.mpr ⟨hcflat, (parentItem_eq_iff hnodup hr).mp hcp⟩
        obtain ⟨dc, hdc⟩ := Option.isSome_iff_exists.mp (hacyc c hcflat)
        have hdc2 : chainLen flat c (flat.length + 1 + 1) = some (dr + 1) :=
          chainLen_child hcp hdr
        have hdceq : dc = dr + 1 := by
          have := chainLen_succ_fuel hdc
          rw [this] at hdc2
          injection hdc2
        have hmem := ih c hcflat dc hdc q hq (reaches_iff.mpr hcmem) dq hdq
          (by omega) x hx
        rw [directChildIdsF_toList, toList_ofTreeList]
        exact List.mem_flatMap.mpr
          ⟨buildTreeFuel flat fuel c, List.mem_map_of_mem _ hcchild, hmem⟩

theorem claimParent_eq_resolvedParent {flat : List FlatItem}
    (hpos : ∀ it ∈ flat, it.id ≠ 0) (it : FlatItem) :
    claimParent flat it = resolvedParent flat it := by
  have hmemiff : ∀ p : Nat, (p ∈ flat.map FlatItem.id) ↔ hasId flat p = true := by
    intro p
    rw [List.mem_map]
    unfold hasId
    rw [List.any_eq_true]
    constructor
    · rintro ⟨a, ha, hap⟩
      exact ⟨a, ha, by simp [hap]⟩
    · rintro ⟨a, ha, hap⟩
      exact ⟨a, ha, by simpa using hap⟩
  cases hp : it.parent_id with
  | none => simp [claimParent, resolvedParent, truthyParentId, hp]
  | some p =>
      by_cases hp0 : p = 0
      · subst hp0
        have h0 : (0 : Nat) ∉ flat.map FlatItem.id := by
          intro hmem
          obtain ⟨j, hj, hjid⟩ := List.mem_map.mp hmem
          exact hpos j hj hjid
        simp [claimParent, resolvedParent, truthyParentId, hp, h0]
      · by_cases hpm : p ∈ flat.map FlatItem.id
        · have := (hmemiff p).mp hpm
          simp [claimParent, resolvedParent, truthyParentId, hp, hp0, hpm, this]
        · have : hasId flat p ≠ true := fun hh => hpm ((hmemiff p).mpr hh)
          have hff : hasId flat p = false := by
            revert this
            cases hasId flat p <;> simp
          simp [claimParent, resolvedParent, truthyParentId, hp, hp0, hpm, hff]

end BCV

namespace BCV

/-- C9 (amended): for every flat input list whose ids are pairwise distinct,
positive, and whose `parent_id` chains are acyclic (every chain of resolved
parent links terminates), `buildHierarchy` returns a forest containing each
input item exactly once (the multiset of ids of the forest is the multiset of
input ids); an item whose `parent_id` is non-null and occurs as the id of an
input item sits in that item's children list; every other item is a root; and
every children list at every depth is sorted ascending by `sequence_order`.
(The unamended claim fails on self-parented or cyclic inputs, where the cycle
members are filed under each other and never reach `roots`, and on inputs
using id 0, which the code's truthiness test treats like `null`.) -/
theorem buildHierarchy_spec (flat : List FlatItem)
    (hnodup : (flat.map FlatItem.id).Nodup)
    (hpos : ∀ it ∈ flat, it.id ≠ 0)
    (hacyc : ∀ it ∈ flat, (chainLen flat it (flat.length + 1)).isSome = true) :
    (flattenIdsForest (buildHierarchy flat)).Perm (flat.map FlatItem.id) ∧
    (∀ it ∈ flat, ∀ p, claimParent flat it = some p →
      it.id ∈ directChildIdsF (buildHierarchy flat) p) ∧
    (∀ it ∈ flat, claimParent flat it = none →
      it.id ∈ forestRootIds (buildHierarchy flat)) ∧
    childrenSortedF (buildHierarchy flat) = true := by
  refine ⟨?_, ?_, ?_, ?_⟩
  · exact (flattenIdsForest_sortChildren _).trans (buildForest_perm hnodup hacyc)
  · intro it hit p hcp
    rw [claimParent_eq_resolvedParent hpos] at hcp
    obtain ⟨q, hq, hqid, hqflat⟩ := resolvedParent_parentItem hcp
    have hitchild : it ∈ childItems flat q.id :=
      mem_childItems.mpr ⟨hit, by rw [hqid]; exact hcp⟩
    obtain ⟨dq, hdq⟩ := Option.isSome_iff_exists.mp (hacyc q hqflat)
    obtain ⟨rt, hrtmem, hrtp⟩ := chain_last_root hdq
    have hrtflat : rt ∈ flat := chainList_sub_flat hqflat hrtmem
    have hrtroot : rt ∈ rootItems flat :=
      mem_rootItems.mpr ⟨hrtflat, parentItem_none_iff.mp hrtp⟩
    have hdrt : chainLen flat rt (flat.length + 1) = some 0 := chainLen_parent_none hrtp
    have hocc := mem_directChildIds_buildTree hnodup hacyc (flat.length + 1) rt hrtflat 0
      hdrt q hqflat (reaches_iff.mpr hrtmem) dq hdq
      (by have := chainLen_lt hdq; omega) it.id
      (List.mem_map_of_mem FlatItem.id hitchild)
    have hforest : it.id ∈ directChildIdsF
        (buildForest flat (flat.length + 1) (rootItems flat)) q.id := by
      rw [directChildIdsF_buildForest]
      exact List.mem_flatMap.mpr
        ⟨buildTreeFuel flat (flat.length + 1) rt, List.mem_map_of_mem _ hrtroot, hocc⟩
    have : it.id ∈ directChildIdsF (buildHierarchy flat) q.id := by
      unfold buildHierarchy
      exact (directChildIdsF_sortChildren _ q.id).mem_iff.mpr hforest
    rwa [hqid] at this
  · intro it hit hnone
    rw [claimParent_eq_resolvedParent hpos] at hnone
    have hroot : it ∈ rootItems flat := mem_rootItems.mpr ⟨hit, hnone⟩
    have hforest : it.id ∈ forestRootIds
        (buildForest flat (flat.length + 1) (rootItems flat)) := by
      rw [forestRootIds_buildForest]
      exact List.mem_map_of_mem FlatItem.id hroot
    unfold buildHierarchy
    exact (forestRootIds_sortChildren _).mem_iff.mpr hforest
  · unfold buildHierarchy
    exact childrenSortedF_sortChildren _

/-- Witness for C9 at `flatFixture`: the forest ids are a permutation of the
input ids, child 3 (`parent_id 1`) sits in the children of node 1, item 4 is
a root, and every children list is sorted. -/
theorem buildHierarchy_spec_witness :
    (flattenIdsForest (buildHierarchy flatFixture)).Perm (flatFixture.map FlatItem.id) ∧
    (3 : Nat) ∈ directChildIdsF (buildHierarchy flatFixture) 1 ∧
    (4 : Nat) ∈ forestRootIds (buildHierarchy flatFixture) ∧
    childrenSortedF (buildHierarchy flatFixture) = true :=
  have h := buildHierarchy_spec flatFixture (by decide) (by decide) (by decide)
  ⟨h.1, h.2.1 ⟨3, some 1, 1⟩ (by decide) 1 (by decide),
    h.2.2.1 ⟨4, none, 0⟩ (by decide) (by decide), h.2.2.2⟩

end BCV
